import Mathlib

set_option maxHeartbeats 1000000

/-!
Verification of the utterance classification and scoring core of the BBRC
digital cognitive-screening battery.

The embedding translates `src/utils/scoring.ts` (normalizer, tokenizer,
classifier, recall/recognition scorers), the n-gram verbal-fluency scorer of
the sibling copy of that module, and the vocabulary configuration of
`src/constants.ts`.

Modelling conventions:
* JavaScript strings are Lean `String`s; character-level work happens on
  `String.data : List Char`.
* `String.prototype.normalize('NFD')` is modelled as a per-character canonical
  decomposition over the repertoire of precomposed Latin letters that the
  program's Portuguese vocabulary can contain; every other character
  decomposes to itself.  `toLowerCase` is likewise a finite character table
  (ASCII plus the same accented repertoire).
* JS `Map` is modelled as the chronological list of `set` calls, with `get`
  returning the value of the last matching `set` (last write wins); JS `Set`
  is a list queried with `contains` and grown with `setAdd`.
* `Date.now()` is modelled by an explicit `now : Nat` argument threaded to
  every construction site of a token; the optional `confidence` field is
  never written by the scoring module and is omitted.
-/

namespace BBRC

/-! ## Definitions (translated from the source) -/

/-- Combining diacritical marks U+0300 .. U+036F, the class removed by the
source regex over the NFD decomposition. -/
def isMark (c : Char) : Bool := 0x300 ≤ c.toNat && c.toNat ≤ 0x36F

/-- Canonical (NFD) decompositions of the precomposed Latin letters that the
program's vocabulary and transcripts use; all other characters decompose to
themselves (see `nfdChar`). -/
def nfdTable : List (Char × List Char) :=
  [ ('à', ['a', Char.ofNat 0x300]), ('á', ['a', Char.ofNat 0x301]),
    ('â', ['a', Char.ofNat 0x302]), ('ã', ['a', Char.ofNat 0x303]),
    ('ç', ['c', Char.ofNat 0x327]), ('é', ['e', Char.ofNat 0x301]),
    ('ê', ['e', Char.ofNat 0x302]), ('í', ['i', Char.ofNat 0x301]),
    ('ó', ['o', Char.ofNat 0x301]), ('ô', ['o', Char.ofNat 0x302]),
    ('õ', ['o', Char.ofNat 0x303]), ('ú', ['u', Char.ofNat 0x301]),
    ('ü', ['u', Char.ofNat 0x308]),
    ('À', ['A', Char.ofNat 0x300]), ('Á', ['A', Char.ofNat 0x301]),
    ('Â', ['A', Char.ofNat 0x302]), ('Ã', ['A', Char.ofNat 0x303]),
    ('Ç', ['C', Char.ofNat 0x327]), ('É', ['E', Char.ofNat 0x301]),
    ('Ê', ['E', Char.ofNat 0x302]), ('Í', ['I', Char.ofNat 0x301]),
    ('Ó', ['O', Char.ofNat 0x301]), ('Ô', ['O', Char.ofNat 0x302]),
    ('Õ', ['O', Char.ofNat 0x303]), ('Ú', ['U', Char.ofNat 0x301]),
    ('Ü', ['U', Char.ofNat 0x308]) ]

/-- One step of `normalize('NFD')`: decompose a single character. -/
def nfdChar (c : Char) : List Char :=
  (((nfdTable.find? (fun p => p.1 == c)).map (fun p => p.2)).getD [c])

/-- `toLowerCase`, modelled as a finite table: ASCII letters plus the
accented repertoire of `nfdTable`. -/
def lowerTable : List (Char × Char) :=
  [ ('A', 'a'), ('B', 'b'), ('C', 'c'), ('D', 'd'), ('E', 'e'), ('F', 'f'),
    ('G', 'g'), ('H', 'h'), ('I', 'i'), ('J', 'j'), ('K', 'k'), ('L', 'l'),
    ('M', 'm'), ('N', 'n'), ('O', 'o'), ('P', 'p'), ('Q', 'q'), ('R', 'r'),
    ('S', 's'), ('T', 't'), ('U', 'u'), ('V', 'v'), ('W', 'w'), ('X', 'x'),
    ('Y', 'y'), ('Z', 'z'),
    ('À', 'à'), ('Á', 'á'), ('Â', 'â'), ('Ã', 'ã'), ('Ç', 'ç'), ('É', 'é'),
    ('Ê', 'ê'), ('Í', 'í'), ('Ó', 'ó'), ('Ô', 'ô'), ('Õ', 'õ'), ('Ú', 'ú'),
    ('Ü', 'ü') ]

def toLowerChar (c : Char) : Char :=
  (((lowerTable.find? (fun p => p.1 == c)).map (fun p => p.2)).getD c)

/-- Whitespace for `trim` and for the `\s` part of the tokenizer split. -/
def isWs (c : Char) : Bool := c == ' ' || c == '\t' || c == '\n' || c == '\r'

/-- `String.prototype.trim`: drop leading and trailing whitespace. -/
def trimChars (l : List Char) : List Char :=
  ((l.dropWhile isWs).reverse.dropWhile isWs).reverse

/-- The mark-stripping and case-folding part of `normalize`: NFD decompose,
delete the combining marks, lower-case. -/
def normCore (l : List Char) : List Char :=
  ((l.flatMap nfdChar).filter (fun c => !isMark c)).map toLowerChar

/-- `normalize` from `src/utils/scoring.ts`: NFD decomposition, removal of
combining marks U+0300..U+036F, `toLowerCase`, `trim`. -/
def normalize (s : String) : String :=
  String.mk (trimChars (normCore s.data))

/-- A character that the whole `normCore` pipeline leaves alone. -/
def StableChar (c : Char) : Prop :=
  nfdChar c = [c] ∧ isMark c = false ∧ toLowerChar c = c

def stableCharB (c : Char) : Bool :=
  (nfdChar c == [c]) && !isMark c && (toLowerChar c == c)

/-- The separator class of the tokenizer split regex: whitespace and the
punctuation set comma, period, semicolon, exclamation, question mark. -/
def isSep (c : Char) : Bool :=
  isWs c || c == ',' || c == '.' || c == ';' || c == '!' || c == '?'

/-- Split a character list on runs of separators, keeping the maximal runs of
non-separator characters in order (the accumulator holds the current word,
reversed). -/
def splitAux : List Char → List Char → List (List Char)
  | [], acc => if acc = [] then [] else [acc.reverse]
  | c :: cs, acc =>
      if isSep c then
        (if acc = [] then splitAux cs [] else acc.reverse :: splitAux cs [])
      else
        splitAux cs (c :: acc)

/-- `tokenize` from `src/utils/scoring.ts`: split on `/[\s,.;!?]+/`, trim each
fragment and drop empty ones.  Splitting on the full separator class already
yields trimmed, non-empty fragments, so the model returns the maximal
separator-free runs directly. -/
def tokenize (transcript : String) : List String :=
  (splitAux transcript.data []).map String.mk

def TARGET_WORDS : List String :=
  ["sapato", "balde", "casa", "tartaruga", "pente", "livro", "chave", "colher", "avião", "árvore"]

def TARGET_SYNONYMS : List (String × List String) :=
  [ ("sapato", ["sapatos", "sapatinho", "sapatilha"]),
    ("balde", ["baldes", "baldinho"]),
    ("casa", ["casinha", "lar"]),
    ("tartaruga", ["jabuti", "tartaruguinha"]),
    ("pente", ["pentes", "pente de cabelo"]),
    ("livro", ["livros", "caderneta"]),
    ("chave", ["chaves"]),
    ("colher", ["colheres", "colherzinha"]),
    ("avião", ["aviao", "avion", "aeroplano"]),
    ("árvore", ["arvore", "arvorezinha"]) ]

/-- `TARGET_SYNONYMS[target] || []`. -/
def synonymsOf (t : String) : List String :=
  (((TARGET_SYNONYMS.find? (fun p => p.1 == t)).map (fun p => p.2)).getD [])

def DISTRACTOR_WORDS : List String :=
  ["caminhão", "ferro", "folha", "chaleira", "bicicleta", "banana", "navio", "porco", "casaco", "carro"]

structure RecognitionItem where
  id : String
  label : String
  isTarget : Bool
  synonyms : List String := []
deriving Repr, DecidableEq

/-- `RECOGNITION_ITEMS`: the recognition stimulus sheet (targets reuse the
target synonym lists; an absent `synonyms` field is the empty list, which the
build loop treats identically). -/
def RECOGNITION_ITEMS : List RecognitionItem :=
  [ ⟨"sapato", "Sapato", true, synonymsOf ("sapato")⟩,
    ⟨"balde", "Balde", true, synonymsOf ("balde")⟩,
    ⟨"casa", "Casa", true, synonymsOf ("casa")⟩,
    ⟨"tartaruga", "Tartaruga", true, synonymsOf ("tartaruga")⟩,
    ⟨"pente", "Pente", true, synonymsOf ("pente")⟩,
    ⟨"livro", "Livro", true, synonymsOf ("livro")⟩,
    ⟨"chave", "Chave", true, synonymsOf ("chave")⟩,
    ⟨"colher", "Colher", true, synonymsOf ("colher")⟩,
    ⟨"avião", "Avião", true, synonymsOf ("avião")⟩,
    ⟨"árvore", "Árvore", true, synonymsOf ("árvore")⟩,
    ⟨"caminhão", "Caminhão", false, ["caminhao", "caminhonete"]⟩,
    ⟨"ferro", "Ferro de passar", false, ["ferro"]⟩,
    ⟨"folha", "Folha", false, []⟩,
    ⟨"chaleira", "Chaleira", false, []⟩,
    ⟨"bicicleta", "Bicicleta", false, ["bike"]⟩,
    ⟨"banana", "Banana", false, []⟩,
    ⟨"navio", "Navio", false, ["barco"]⟩,
    ⟨"porco", "Porco", false, ["porquinho"]⟩,
    ⟨"casaco", "Casaco", false, ["paletó", "blazer"]⟩,
    ⟨"carro", "Carro", false, []⟩ ]

/-- `Map.get`, on the chronological list of `set` calls. -/
def mapGet {α : Type} (pairs : List (String × α)) (k : String) : Option α :=
  ((pairs.reverse.find? (fun p => p.1 == k)).map (fun p => p.2))

structure TargetEntry where
  id : String
  canonical : String
deriving Repr, DecidableEq

/-- The `set` calls performed by the `allTargetForms` build loop, in order:
for each target, its canonical primary form, then every synonym form, all
mapping to `{ id, canonical }`. -/
def allTargetFormsPairs : List (String × TargetEntry) :=
  TARGET_WORDS.flatMap (fun target =>
    (normalize target, ⟨target, normalize target⟩) ::
      (synonymsOf target).map (fun syn => (normalize syn, ⟨target, normalize target⟩)))

/-- `allTargetForms.get`. -/
def allTargetForms (k : String) : Option TargetEntry :=
  mapGet allTargetFormsPairs k

/-- `distractorForms`: the set of normalized distractor words. -/
def distractorForms : List String := DISTRACTOR_WORDS.map normalize

structure VocabEntry where
  id : String
  isTarget : Bool
deriving Repr, DecidableEq

/-- The `set` calls performed by the `recognitionVocabulary` build loop. -/
def recognitionVocabularyPairs : List (String × VocabEntry) :=
  RECOGNITION_ITEMS.flatMap (fun item =>
    (normalize item.id, ⟨item.id, item.isTarget⟩) ::
      item.synonyms.map (fun syn => (normalize syn, ⟨item.id, item.isTarget⟩)))

/-- `recognitionVocabulary.get`. -/
def recognitionVocabulary (k : String) : Option VocabEntry :=
  mapGet recognitionVocabularyPairs k

inductive Classification where
  | target
  | distractor
  | intrusion
  | repeat
deriving Repr, DecidableEq

/-- `SpokenToken` from `src/types.ts`; `timestamp` is the `Date.now()` value
captured at construction (threaded as `now`), and the optional `confidence`
field is omitted because the scoring module never writes it. -/
structure SpokenToken where
  raw : String
  normalized : String
  timestamp : Nat
  classification : Classification
  mappedId : Option String := none
deriving Repr, DecidableEq

/-- JS `Set.add` on the list model. -/
def setAdd {α : Type} [BEq α] (l : List α) (x : α) : List α :=
  if l.contains x then l else l ++ [x]

/-- `classifyToken` from `src/utils/scoring.ts`.  The source mutates the
`seenTargets` set in the target branch; the model returns the token together
with the updated set.  The `allowDistractors` block is modelled by
`afterAllow`: when it produces a token the function returns it, otherwise
control falls through to the trailing distractor check. -/
def classifyToken (now : Nat) (token : String) (seenTargets : List String)
    (allowDistractors : Bool) : SpokenToken × List String :=
  let normalized := normalize token
  let base : SpokenToken :=
    { raw := token, normalized := normalized, timestamp := now,
      classification := Classification.intrusion }
  match allTargetForms normalized with
  | some target =>
      if seenTargets.contains target.canonical then
        ({ base with classification := Classification.repeat, mappedId := some target.id },
         seenTargets)
      else
        ({ base with classification := Classification.target, mappedId := some target.id },
         setAdd seenTargets target.canonical)
  | none =>
      let afterAllow : Option SpokenToken :=
        if allowDistractors then
          match recognitionVocabulary normalized with
          | some vocabHit =>
              let cls :=
                if vocabHit.isTarget then Classification.target else Classification.distractor
              some { base with classification := cls, mappedId := some vocabHit.id }
          | none =>
              if distractorForms.contains normalized then
                some { base with classification := Classification.distractor, mappedId := some normalized }
              else
                none
        else
          none
      match afterAllow with
      | some t => (t, seenTargets)
      | none =>
          if distractorForms.contains normalized then
            ({ base with classification := Classification.intrusion, mappedId := some normalized },
             seenTargets)
          else
            (base, seenTargets)

/-- `tokenize(transcript).map((token) => classifyToken(token, seen, allow))`:
the shared mutable `seen` set threads left to right. -/
def classifyTokens (now : Nat) (toks : List String) (seen : List String)
    (allowDistractors : Bool) : List SpokenToken × List String :=
  match toks with
  | [] => ([], seen)
  | t :: rest =>
      let p := classifyToken now t seen allowDistractors
      let q := classifyTokens now rest p.2 allowDistractors
      (p.1 :: q.1, q.2)

/-- The JS idiom `arr.filter((id, idx) => arr.indexOf(id) === idx)`: keep the
first occurrence of each element. -/
def keepFirst (l : List String) : List String :=
  (l.enum.filter (fun p => l.indexOf p.2 == p.1)).map (fun p => p.2)

/-- The newly credited identities, in token-stream order:
`tokens.filter(t => t.classification === 'target').map(t => t.mappedId!)`
(the non-null assertion is modelled by `Option.getD`; target tokens always
carry a `mappedId`). -/
def targetIds (tokens : List SpokenToken) : List String :=
  (tokens.filter (fun t => t.classification == Classification.target)).map
    (fun t => t.mappedId.getD (""))

structure RecallScore where
  tokens : List SpokenToken
  hits : List String
  intrusions : List SpokenToken
  repeats : List SpokenToken
deriving Repr, DecidableEq

/-- `scoreRecallUtterance` from `src/utils/scoring.ts`. -/
def scoreRecallUtterance (now : Nat) (transcript : String)
    (alreadyHit : List String) : RecallScore :=
  let seen := alreadyHit.map normalize
  let tokens := (classifyTokens now (tokenize transcript) seen false).1
  { tokens := tokens,
    hits := keepFirst (targetIds tokens),
    intrusions := tokens.filter (fun t => t.classification == Classification.intrusion),
    repeats := tokens.filter (fun t => t.classification == Classification.repeat) }

structure RecognitionScore where
  tokens : List SpokenToken
  hits : List String
  distractorHits : List SpokenToken
  intrusions : List SpokenToken
  repeats : List SpokenToken
deriving Repr, DecidableEq

/-- `scoreRecognitionUtterance` from `src/utils/scoring.ts`. -/
def scoreRecognitionUtterance (now : Nat) (transcript : String)
    (alreadyHit : List String) : RecognitionScore :=
  let seen := alreadyHit.map normalize
  let tokens := (classifyTokens now (tokenize transcript) seen true).1
  { tokens := tokens,
    hits := keepFirst (targetIds tokens),
    distractorHits := tokens.filter (fun t => t.classification == Classification.distractor),
    intrusions := tokens.filter (fun t => t.classification == Classification.intrusion),
    repeats := tokens.filter (fun t => t.classification == Classification.repeat) }

/-- `ANIMAL_LIST` from `src/constants.ts` (a JS `Set` built from this literal;
the duplicated literals are harmless for membership). -/
def ANIMAL_LIST : List String :=
  [ "cachorro", "gato", "cavalo", "vaca", "porco", "ovelha", "bode", "cabra", "galinha", "pato",
    "ganso", "peru", "pombo", "pardal", "canário", "papagaio", "arara", "águia", "falcão",
    "coruja", "tigre", "leão", "onça", "elefante", "rinoceronte", "hipopótamo", "girafa", "zebra",
    "urso", "canguru", "coala", "macaco", "gorila", "chimpanzé", "orangotango", "babuíno",
    "mandril", "lêmure", "morcego", "tamanduá", "tatu", "capivara", "guaxinim", "raposa", "lobo",
    "lobo-guará", "gato-do-mato", "panda", "panda-vermelho", "golfinho", "baleia", "tubarão",
    "peixe", "polvo", "lula", "caranguejo", "lagosta", "camarão", "tartaruga", "jabuti", "jacaré",
    "crocodilo", "lagartixa", "camaleão", "cobra", "salamandra", "rã", "sapo", "perereca",
    "formiga", "abelha", "vespa", "borboleta", "mariposa", "grilo", "gafanhoto", "louva-a-deus",
    "besouro", "joaninha", "vagalume", "libélula", "mosca", "mosquito", "pulga", "aranha",
    "escorpião", "carrapato", "centopeia", "minhoca", "lesma", "caracol", "ostra", "mexilhão",
    "água-viva", "coral", "ostra", "mexilhão", "enguia", "arraia", "piranha", "sardinha",
    "bacalhau", "peixe-boi", "pinguim", "avestruz", "ema", "garça", "cisne", "pavão", "tucano",
    "beija-flor", "andorinha", "sabiá", "pica-pau", "corvo", "gralha", "mico-leão-dourado",
    "bicho-preguiça", "quati", "javali", "ouriço", "esquilo", "lontra", "texugo", "suricato",
    "lhama", "alpaca", "vicunha" ]

/-- `getNormalizedAnimals`: the derived set of normalized animal names.  The
source memoizes this value in a module-level cache keyed by reference
identity of the input set; the model is the value that cache holds when it is
not stale. -/
def getNormalizedAnimals (validAnimals : List String) : List String :=
  validAnimals.map normalize

/-- The mutable locals of `scoreFluencyUtterance` (n-gram variant): the set
of consumed word positions, the `seen` set, and the four output lists. -/
structure FluencyState where
  consumed : List Nat
  seen : List String
  tokens : List SpokenToken
  animals : List String
  invalid : List SpokenToken
  repeats : List SpokenToken
deriving Repr, DecidableEq

/-- The raw text of a 3-word window. -/
def triRaw (words : List String) (i : Nat) : String :=
  words.getD i ("") ++ (" ") ++ words.getD (i+1) ("") ++ (" ") ++ words.getD (i+2) ("")

/-- The raw text of a 2-word window. -/
def biRaw (words : List String) (i : Nat) : String :=
  words.getD i ("") ++ (" ") ++ words.getD (i+1) ("")

/-- One iteration of the trigram loop. -/
def triStep (now : Nat) (words lookup : List String) (s : FluencyState) (i : Nat) :
    FluencyState :=
  if s.consumed.contains i || s.consumed.contains (i+1) || s.consumed.contains (i+2) then s
  else
    let trigram := normalize (triRaw words i)
    if lookup.contains trigram then
      let base : SpokenToken :=
        { raw := triRaw words i, normalized := trigram, timestamp := now,
          classification := Classification.intrusion }
      let s' :=
        if s.seen.contains trigram then
          { s with repeats := s.repeats ++
              [{ base with classification := Classification.repeat, mappedId := some trigram }] }
        else
          { s with
            seen := setAdd s.seen trigram,
            animals := s.animals ++ [trigram],
            tokens := s.tokens ++
              [{ base with classification := Classification.target, mappedId := some trigram }] }
      { s' with consumed := setAdd (setAdd (setAdd s'.consumed i) (i+1)) (i+2) }
    else s

/-- One iteration of the bigram loop. -/
def biStep (now : Nat) (words lookup : List String) (s : FluencyState) (i : Nat) :
    FluencyState :=
  if s.consumed.contains i || s.consumed.contains (i+1) then s
  else
    let bigram := normalize (biRaw words i)
    if lookup.contains bigram then
      let base : SpokenToken :=
        { raw := biRaw words i, normalized := bigram, timestamp := now,
          classification := Classification.intrusion }
      let s' :=
        if s.seen.contains bigram then
          { s with repeats := s.repeats ++
              [{ base with classification := Classification.repeat, mappedId := some bigram }] }
        else
          { s with
            seen := setAdd s.seen bigram,
            animals := s.animals ++ [bigram],
            tokens := s.tokens ++
              [{ base with classification := Classification.target, mappedId := some bigram }] }
      { s' with consumed := setAdd (setAdd s'.consumed i) (i+1) }
    else s

/-- One iteration of the unigram loop. -/
def uniStep (now : Nat) (words lookup : List String) (s : FluencyState) (i : Nat) :
    FluencyState :=
  if s.consumed.contains i then s
  else
    let norm := normalize (words.getD i (""))
    let base : SpokenToken :=
      { raw := words.getD i (""), normalized := norm, timestamp := now,
        classification := Classification.intrusion }
    let s' :=
      if lookup.contains norm then
        if s.seen.contains norm then
          { s with repeats := s.repeats ++
              [{ base with classification := Classification.repeat, mappedId := some norm }] }
        else
          { s with
            seen := setAdd s.seen norm,
            animals := s.animals ++ [norm],
            tokens := s.tokens ++
              [{ base with classification := Classification.target, mappedId := some norm }] }
      else
        { s with invalid := s.invalid ++ [base], tokens := s.tokens ++ [base] }
    { s' with consumed := setAdd s'.consumed i }

/-- `for (let i = start; fuel iterations; i++) step`. -/
def passLoop (step : FluencyState → Nat → FluencyState) : Nat → Nat → FluencyState → FluencyState
  | _, 0, s => s
  | i, Nat.succ fuel, s => passLoop step (i+1) fuel (step s i)

/-- The trigram loop: `for (let i = 0; i < words.length - 2; i++)`. -/
def triPass (now : Nat) (words lookup : List String) (s : FluencyState) : FluencyState :=
  passLoop (triStep now words lookup) 0 (words.length - 2) s

/-- The bigram loop: `for (let i = 0; i < words.length - 1; i++)`. -/
def biPass (now : Nat) (words lookup : List String) (s : FluencyState) : FluencyState :=
  passLoop (biStep now words lookup) 0 (words.length - 1) s

/-- The unigram loop: `for (let i = 0; i < words.length; i++)`. -/
def uniPass (now : Nat) (words lookup : List String) (s : FluencyState) : FluencyState :=
  passLoop (uniStep now words lookup) 0 words.length s

/-- The state at function entry: empty outputs, `seen` seeded from
`alreadyProduced.map(normalize)`. -/
def fluInit (alreadyProduced : List String) : FluencyState :=
  { consumed := [], seen := alreadyProduced.map normalize,
    tokens := [], animals := [], invalid := [], repeats := [] }

structure FluencyScore where
  tokens : List SpokenToken
  animals : List String
  invalid : List SpokenToken
  repeats : List SpokenToken
deriving Repr, DecidableEq

/-- `scoreFluencyUtterance`, the n-gram variant: trigram pass, then bigram
pass over unconsumed positions, then unigram pass over the rest. -/
def scoreFluencyUtterance (now : Nat) (transcript : String) (validAnimals : List String)
    (alreadyProduced : List String) : FluencyScore :=
  let lookup := getNormalizedAnimals validAnimals
  let words := tokenize transcript
  let s3 := uniPass now words lookup (biPass now words lookup (triPass now words lookup
    (fluInit alreadyProduced)))
  { tokens := s3.tokens, animals := s3.animals, invalid := s3.invalid, repeats := s3.repeats }

/-- Merged recall hits over a sequence of `(now, transcript)` calls. -/
def runRecallHits (calls : List (Nat × String)) : List String :=
  calls.foldl (fun acc c => acc ++ (scoreRecallUtterance c.1 c.2 acc).hits) []

/-- Merged recognition hits over a sequence of `(now, transcript)` calls. -/
def runRecognitionHits (calls : List (Nat × String)) : List String :=
  calls.foldl (fun acc c => acc ++ (scoreRecognitionUtterance c.1 c.2 acc).hits) []

/-- Merged fluency animals over a sequence of `(now, transcript)` calls with
a fixed animal dictionary. -/
def runFluencyAnimals (validAnimals : List String) (calls : List (Nat × String)) : List String :=
  calls.foldl (fun acc c => acc ++ (scoreFluencyUtterance c.1 c.2 validAnimals acc).animals) []

/-- Overwrite a token's `Date.now()` timestamp. -/
def withTime (n : Nat) (t : SpokenToken) : SpokenToken := { t with timestamp := n }

/-- A recall result with all timestamps erased. -/
def stripRecall (r : RecallScore) : RecallScore :=
  { tokens := r.tokens.map (withTime 0), hits := r.hits,
    intrusions := r.intrusions.map (withTime 0), repeats := r.repeats.map (withTime 0) }

/-- A recognition result with all timestamps erased. -/
def stripRecognition (r : RecognitionScore) : RecognitionScore :=
  { tokens := r.tokens.map (withTime 0), hits := r.hits,
    distractorHits := r.distractorHits.map (withTime 0),
    intrusions := r.intrusions.map (withTime 0), repeats := r.repeats.map (withTime 0) }

/-- A fluency result with all timestamps erased. -/
def stripFluency (r : FluencyScore) : FluencyScore :=
  { tokens := r.tokens.map (withTime 0), animals := r.animals,
    invalid := r.invalid.map (withTime 0), repeats := r.repeats.map (withTime 0) }

/-- A fluency state with all timestamps rewritten to `n`. -/
def timeState (n : Nat) (s : FluencyState) : FluencyState :=
  { s with
    tokens := s.tokens.map (withTime n),
    invalid := s.invalid.map (withTime n),
    repeats := s.repeats.map (withTime n) }

/-- Deduplication invariant of the fluency state, relative to the seed set
`seen0` (only `animals` and `seen` matter). -/
def FluInvCore (seen0 animals seen : List String) : Prop :=
  animals.Nodup ∧
  (∀ y ∈ animals, y ∈ seen ∧ y ∉ seen0 ∧ normalize y = y) ∧
  (∀ x ∈ seen0, x ∈ seen)

def FluInv (seen0 : List String) (s : FluencyState) : Prop :=
  FluInvCore seen0 s.animals s.seen

/-- `tokens` holds exactly the credited matches (in step order, their
normalized forms being `animals`) plus the invalid words; repeats live only
in `repeats`. -/
def ShapeInv (s : FluencyState) : Prop :=
  ((s.tokens.filter (fun t => t.classification == Classification.target)).map
      (fun t => t.normalized) = s.animals) ∧
  (s.tokens.filter (fun t => t.classification == Classification.intrusion) = s.invalid) ∧
  (∀ t ∈ s.tokens, t.classification = Classification.target ∨
      t.classification = Classification.intrusion) ∧
  (∀ t ∈ s.repeats, t.classification = Classification.repeat)

/-- The conclusion of the (amended) greedy-trigram claim at window `i`:
after the trigram pass all three positions are consumed; the phrase is
credited exactly once (as a new animal or as a repeat) in the final result;
and every token or repeat produced by the later passes either predates them
or stems from a window whose positions were all unconsumed after the trigram
pass — in particular disjoint from `i`, `i+1`, `i+2`. -/
def fluGreedySpec (now : Nat) (transcript : String) (dict already : List String)
    (i : Nat) : Prop :=
  (i ∈ (triPass now (tokenize transcript) (getNormalizedAnimals dict)
      (fluInit already)).consumed ∧
   (i+1) ∈ (triPass now (tokenize transcript) (getNormalizedAnimals dict)
      (fluInit already)).consumed ∧
   (i+2) ∈ (triPass now (tokenize transcript) (getNormalizedAnimals dict)
      (fluInit already)).consumed) ∧
  (normalize (triRaw (tokenize transcript) i) ∈
      (scoreFluencyUtterance now transcript dict already).animals ∨
   normalize (triRaw (tokenize transcript) i) ∈
      ((scoreFluencyUtterance now transcript dict already).repeats.map
        (fun t => t.normalized))) ∧
  (∀ t ∈ (scoreFluencyUtterance now transcript dict already).tokens,
    t ∈ (triPass now (tokenize transcript) (getNormalizedAnimals dict)
        (fluInit already)).tokens ∨
    (∃ k, k ∉ (triPass now (tokenize transcript) (getNormalizedAnimals dict)
        (fluInit already)).consumed ∧
      (k+1) ∉ (triPass now (tokenize transcript) (getNormalizedAnimals dict)
        (fluInit already)).consumed ∧
      k ∉ [i, i+1, i+2] ∧ (k+1) ∉ [i, i+1, i+2] ∧
      t.raw = biRaw (tokenize transcript) k) ∨
    (∃ k, k ∉ (triPass now (tokenize transcript) (getNormalizedAnimals dict)
        (fluInit already)).consumed ∧
      k ∉ [i, i+1, i+2] ∧ t.raw = (tokenize transcript).getD k (""))) ∧
  (∀ t ∈ (scoreFluencyUtterance now transcript dict already).repeats,
    t ∈ (triPass now (tokenize transcript) (getNormalizedAnimals dict)
        (fluInit already)).repeats ∨
    (∃ k, k ∉ (triPass now (tokenize transcript) (getNormalizedAnimals dict)
        (fluInit already)).consumed ∧
      (k+1) ∉ (triPass now (tokenize transcript) (getNormalizedAnimals dict)
        (fluInit already)).consumed ∧
      k ∉ [i, i+1, i+2] ∧ (k+1) ∉ [i, i+1, i+2] ∧
      t.raw = biRaw (tokenize transcript) k) ∨
    (∃ k, k ∉ (triPass now (tokenize transcript) (getNormalizedAnimals dict)
        (fluInit already)).consumed ∧
      k ∉ [i, i+1, i+2] ∧ t.raw = (tokenize transcript).getD k ("")))

/-! ## Theorems -/

theorem nfdChar_of_none {c : Char}
    (h : nfdTable.find? (fun p => p.1 == c) = none) : nfdChar c = [c] := by
  unfold nfdChar; rw [h]; rfl

theorem nfdChar_of_some {c : Char} {p : Char × List Char}
    (h : nfdTable.find? (fun q => q.1 == c) = some p) : nfdChar c = p.2 := by
  unfold nfdChar; rw [h]; rfl

theorem toLowerChar_of_none {c : Char}
    (h : lowerTable.find? (fun p => p.1 == c) = none) : toLowerChar c = c := by
  unfold toLowerChar; rw [h]; rfl

theorem toLowerChar_of_some {c : Char} {p : Char × Char}
    (h : lowerTable.find? (fun q => q.1 == c) = some p) : toLowerChar c = p.2 := by
  unfold toLowerChar; rw [h]; rfl

theorem stableCharB_iff {c : Char} : stableCharB c = true ↔ StableChar c := by
  simp [stableCharB, StableChar, Bool.and_eq_true, and_assoc]

theorem nfdTable_outputs_ok :
    nfdTable.all (fun p => p.2.all (fun d => isMark d || stableCharB (toLowerChar d))) = true := by
  rfl

theorem lowerTable_outputs_ok :
    lowerTable.all
      (fun p => stableCharB p.2 || nfdTable.any (fun q => q.1 == p.1)) = true := by
  rfl

/-- Every character surviving the decompose-and-strip phase is, after
lower-casing, a fixed point of the whole pipeline. -/
theorem stable_after (c e : Char) (he : e ∈ nfdChar c) (hm : isMark e = false) :
    StableChar (toLowerChar e) := by
  cases hfind : nfdTable.find? (fun p => p.1 == c) with
  | none =>
      rw [nfdChar_of_none hfind] at he
      have hec : e = c := by simpa using he
      subst hec
      cases hf2 : lowerTable.find? (fun p => p.1 == e) with
      | none =>
          rw [toLowerChar_of_none hf2]
          exact ⟨nfdChar_of_none hfind, hm, toLowerChar_of_none hf2⟩
      | some q =>
          rw [toLowerChar_of_some hf2]
          have hqmem : q ∈ lowerTable := List.mem_of_find?_eq_some hf2
          have hqkey := List.find?_some hf2
          have hall := List.all_eq_true.mp lowerTable_outputs_ok q hqmem
          rcases Bool.or_eq_true_iff.mp hall with hstable | hany
          · exact stableCharB_iff.mp hstable
          · exfalso
            rcases List.any_eq_true.mp hany with ⟨r, hrmem, hrkey⟩
            have hkey1 : q.1 = e := by simpa using hqkey
            have hkey2 : r.1 = q.1 := by simpa using hrkey
            have := List.find?_eq_none.mp hfind r hrmem
            apply this
            simp [hkey1, hkey2]
  | some p =>
      rw [nfdChar_of_some hfind] at he
      have hpmem : p ∈ nfdTable := List.mem_of_find?_eq_some hfind
      have hall := List.all_eq_true.mp nfdTable_outputs_ok p hpmem
      have hd := List.all_eq_true.mp hall e he
      rcases Bool.or_eq_true_iff.mp hd with hmark | hstable
      · rw [hm] at hmark
        cases hmark
      · exact stableCharB_iff.mp hstable

theorem mem_normCore_stable (l : List Char) {c : Char} (hc : c ∈ normCore l) :
    StableChar c := by
  unfold normCore at hc
  rcases List.mem_map.mp hc with ⟨e, he, rfl⟩
  rcases List.mem_filter.mp he with ⟨hbind, hmark⟩
  rcases List.mem_flatMap.mp hbind with ⟨a, _, hea⟩
  exact stable_after a e hea (by simpa using hmark)

theorem normCore_fixed : ∀ {l : List Char}, (∀ c ∈ l, StableChar c) → normCore l = l := by
  intro l
  induction l with
  | nil => intro _; rfl
  | cons a t ih =>
      intro h
      have ha := h a (List.mem_cons_self a t)
      have ht : ∀ c ∈ t, StableChar c := fun c hc => h c (List.mem_cons_of_mem a hc)
      have hmark : (!isMark a) = true := by rw [ha.2.1]; rfl
      unfold normCore
      rw [List.flatMap_cons, ha.1]
      simp only [List.singleton_append, List.filter_cons, hmark, if_true, List.map_cons, ha.2.2]
      have htail := ih ht
      unfold normCore at htail
      rw [htail]

theorem dropWhile_head_false {p : Char → Bool} :
    ∀ {l : List Char} {a : Char} {t : List Char}, l.dropWhile p = a :: t → p a = false := by
  intro l
  induction l with
  | nil => intro a t h; cases h
  | cons b l ih =>
      intro a t h
      rw [List.dropWhile_cons] at h
      cases hpb : p b with
      | true =>
          rw [hpb] at h
          simp only [if_true] at h
          exact ih h
      | false =>
          rw [hpb] at h
          simp only [Bool.false_eq_true, if_false] at h
          injection h with h1 _
          subst h1
          exact hpb

theorem dropWhile_eq_self_of_head {p : Char → Bool} {l : List Char}
    (h : ∀ a, l.head? = some a → p a = false) : l.dropWhile p = l := by
  cases l with
  | nil => rfl
  | cons a t =>
      have ha := h a rfl
      rw [List.dropWhile_cons, ha]
      simp

theorem dropWhile_idem {p : Char → Bool} (l : List Char) :
    (l.dropWhile p).dropWhile p = l.dropWhile p := by
  apply dropWhile_eq_self_of_head
  intro a ha
  cases hdl : l.dropWhile p with
  | nil => rw [hdl] at ha; cases ha
  | cons b t =>
      rw [hdl] at ha
      injection ha with hb
      subst hb
      exact dropWhile_head_false hdl

theorem getLast?_dropWhile (p : Char → Bool) :
    ∀ (l : List Char), l.dropWhile p = [] ∨ (l.dropWhile p).getLast? = l.getLast? := by
  intro l
  induction l with
  | nil => left; rfl
  | cons a t ih =>
      cases hpa : p a with
      | true =>
          have hstep : (a :: t).dropWhile p = t.dropWhile p := by
            rw [List.dropWhile_cons, hpa]; simp
          by_cases hnil : t.dropWhile p = []
          · left; rw [hstep, hnil]
          · right
            rw [hstep]
            rcases ih with h | h
            · exact absurd h hnil
            · rw [h]
              cases t with
              | nil => exact absurd rfl hnil
              | cons c t' => exact (List.getLast?_cons_cons).symm
      | false =>
          right
          have hstep : (a :: t).dropWhile p = a :: t := by
            rw [List.dropWhile_cons, hpa]; simp
          rw [hstep]

theorem trimChars_idem (l : List Char) : trimChars (trimChars l) = trimChars l := by
  unfold trimChars
  set u := l.dropWhile isWs with hu
  set v := u.reverse.dropWhile isWs with hv
  set m := v.reverse with hm
  have hdm : m.dropWhile isWs = m := by
    apply dropWhile_eq_self_of_head
    intro a ha
    rw [hm, List.head?_reverse] at ha
    rcases getLast?_dropWhile isWs u.reverse with hnil | hlast
    · rw [← hv] at hnil
      rw [hnil] at ha
      cases ha
    · rw [← hv] at hlast
      rw [hlast, List.getLast?_reverse] at ha
      cases hcu : u with
      | nil => rw [hcu] at ha; cases ha
      | cons b t =>
          rw [hcu] at ha
          injection ha with hb
          subst hb
          exact dropWhile_head_false (hu ▸ hcu)
  have hdv : v.dropWhile isWs = v := by
    rw [hv]
    exact dropWhile_idem _
  rw [hdm, hm, List.reverse_reverse, hdv]

/-- `normalize` is idempotent (helper shared by several claims). -/
theorem normalize_idem (s : String) : normalize (normalize s) = normalize s := by
  unfold normalize
  have hdata : (String.mk (trimChars (normCore s.data))).data = trimChars (normCore s.data) := rfl
  rw [hdata]
  have hstable : ∀ c ∈ trimChars (normCore s.data), StableChar c := by
    intro c hc
    apply mem_normCore_stable s.data
    unfold trimChars at hc
    rw [List.mem_reverse] at hc
    have h1 := (List.dropWhile_sublist isWs).subset hc
    rw [List.mem_reverse] at h1
    exact (List.dropWhile_sublist isWs).subset h1
  rw [normCore_fixed hstable, trimChars_idem]

example : normalize ("  Avião ") = "aviao" := by rfl

example : normalize ("ÁRVORE") = "arvore" := by rfl

example : normalize (normalize ("Coração  X")) = normalize ("Coração  X") := by rfl

example : tokenize ("sapato casa,  casa. caminhão!") = ["sapato", "casa", "casa", "caminhão"] := by rfl

example : tokenize ("  ") = [] := by rfl

theorem mapGet_mem {α : Type} {pairs : List (String × α)} {k : String} {v : α}
    (h : mapGet pairs k = some v) : (k, v) ∈ pairs ∧ k ∈ pairs.map Prod.fst := by
  unfold mapGet at h
  cases hf : pairs.reverse.find? (fun p => p.1 == k) with
  | none => rw [hf] at h; cases h
  | some p =>
      rw [hf] at h
      have hp : p.2 = v := by simpa using h
      have hkey : p.1 = k := by simpa using List.find?_some hf
      have hmem : p ∈ pairs := List.mem_reverse.mp (List.mem_of_find?_eq_some hf)
      constructor
      · rw [← hkey, ← hp]
        exact hmem
      · rw [← hkey]
        exact List.mem_map_of_mem Prod.fst hmem

example : allTargetForms (normalize ("Sapatos")) = some ⟨"sapato", "sapato"⟩ := by rfl

example : allTargetForms ("jabuti") = some ⟨"tartaruga", "tartaruga"⟩ := by rfl

example : allTargetForms ("chaleira") = none := by rfl

example : recognitionVocabulary ("chaleira") = some ⟨"chaleira", false⟩ := by rfl

example : distractorForms.contains ("caminhao") = true := by rfl

example :
    (scoreRecallUtterance 0 ("sapato casa casa caminhão") []).hits = ["sapato", "casa"] := by
  rfl

example :
    (scoreRecallUtterance 0 ("sapato casa casa caminhão") []).repeats.length = 1 := by
  rfl

example :
    ((scoreRecallUtterance 0 ("sapato casa casa caminhão") []).intrusions.map
      (fun t => t.normalized)) = ["caminhao"] := by
  rfl

example :
    (scoreRecognitionUtterance 0 ("avião chaleira árvore avião") []).hits
      = ["avião", "árvore"] := by
  rfl

example :
    ((scoreRecognitionUtterance 0 ("avião chaleira árvore avião") []).distractorHits.map
      (fun t => t.normalized)) = ["chaleira"] := by
  rfl

example :
    (scoreRecallUtterance 0 ("aviao arvore jabuti") []).hits
      = ["avião", "árvore", "tartaruga"] := by
  rfl

example : (scoreRecallUtterance 0 ("sapato casa") ["sapato"]).hits = ["casa"] := by rfl

example : (scoreRecallUtterance 0 ("sapato casa") ["sapato"]).repeats.length = 1 := by rfl

example :
    (scoreFluencyUtterance 0 ("gato cachorro gato pedra") ANIMAL_LIST []).animals
      = ["gato", "cachorro"] := by rfl

example :
    (scoreFluencyUtterance 0 ("gato cachorro gato pedra") ANIMAL_LIST []).repeats.length
      = 1 := by rfl

example :
    (scoreFluencyUtterance 0 ("mico leao dourado cachorro")
      ["mico leao dourado", "cachorro"] []).animals = ["mico leao dourado", "cachorro"] := by rfl

example :
    (scoreFluencyUtterance 0 ("lobo guara urso polar gato")
      ["lobo guara", "urso polar", "gato"] []).animals
      = ["lobo guara", "urso polar", "gato"] := by rfl

theorem contains_iff {α : Type} [BEq α] [LawfulBEq α] {l : List α} {x : α} :
    l.contains x = true ↔ x ∈ l := by
  simp [List.contains_iff_exists_mem_beq]

theorem mem_setAdd_of_mem {α : Type} [BEq α] [LawfulBEq α] {l : List α} {x y : α}
    (h : y ∈ l) : y ∈ setAdd l x := by
  unfold setAdd
  split
  · exact h
  · exact List.mem_append_left _ h

theorem mem_setAdd_self {α : Type} [BEq α] [LawfulBEq α] (l : List α) (x : α) :
    x ∈ setAdd l x := by
  unfold setAdd
  split
  · next h => exact contains_iff.mp h
  · exact List.mem_append_right _ (by simp)

theorem mem_setAdd_iff {α : Type} [BEq α] [LawfulBEq α] {l : List α} {x y : α} :
    y ∈ setAdd l x ↔ y ∈ l ∨ y = x := by
  unfold setAdd
  split
  · next h =>
      constructor
      · exact fun hy => Or.inl hy
      · rintro (hy | rfl)
        · exact hy
        · exact contains_iff.mp h
  · simp [List.mem_append]

theorem keepFirst_subset {l : List String} {a : String} (h : a ∈ keepFirst l) : a ∈ l := by
  unfold keepFirst at h
  rcases List.mem_map.mp h with ⟨p, hp, rfl⟩
  have hmem := List.mem_of_mem_filter hp
  exact List.getElem?_mem (List.mem_enum_iff_getElem?.mp hmem)

theorem mem_keepFirst {l : List String} {a : String} : a ∈ keepFirst l ↔ a ∈ l := by
  constructor
  · exact keepFirst_subset
  · intro h
    unfold keepFirst
    apply List.mem_map.mpr
    refine ⟨(l.indexOf a, a), ?_, rfl⟩
    apply List.mem_filter.mpr
    refine ⟨List.mem_enum_iff_getElem?.mpr ?_, by simp⟩
    simpa using List.getElem?_indexOf h

theorem keepFirst_pairwise (l : List String) :
    (keepFirst l).Pairwise (fun a b => l.indexOf a < l.indexOf b) := by
  unfold keepFirst
  have henum : l.enum.Pairwise (fun p q : Nat × String => p.1 < q.1) := by
    have hrange := List.pairwise_lt_range l.length
    rw [← List.enum_map_fst l] at hrange
    exact (List.pairwise_map.mp hrange)
  have hfil := henum.filter (fun p => l.indexOf p.2 == p.1)
  have hfil2 : (l.enum.filter (fun p => l.indexOf p.2 == p.1)).Pairwise
      (fun p q : Nat × String => l.indexOf p.2 < l.indexOf q.2) := by
    refine hfil.imp_of_mem ?_
    intro p q hp hq hlt
    have hip : l.indexOf p.2 = p.1 := by
      simpa using (List.mem_filter.mp hp).2
    have hiq : l.indexOf q.2 = q.1 := by
      simpa using (List.mem_filter.mp hq).2
    rw [hip, hiq]
    exact hlt
  exact List.pairwise_map.mpr hfil2

theorem keepFirst_nodup (l : List String) : (keepFirst l).Nodup := by
  have h := keepFirst_pairwise l
  refine h.imp ?_
  intro a b hlt heq
  subst heq
  exact Nat.lt_irrefl _ hlt

/-- Every entry of the target table satisfies
`canonical = normalize(id)` — the canonical primary of a target is the
normalization of its identity. -/
theorem targetForms_canonical_check :
    allTargetFormsPairs.all (fun p => p.2.canonical == normalize p.2.id) = true := by rfl

theorem targetForms_canonical {k : String} {e : TargetEntry}
    (h : allTargetForms k = some e) : e.canonical = normalize e.id := by
  have hmem := (mapGet_mem h).1
  have := List.all_eq_true.mp targetForms_canonical_check _ hmem
  simpa using this

/-- Every recognition-vocabulary key tagged `isTarget` is also a key of the
target table (so the vocabulary branch of the classifier can never produce a
`target` classification: the target table captures those tokens first). -/
theorem recVocab_targets_covered_check :
    recognitionVocabularyPairs.all
      (fun p => !p.2.isTarget || (allTargetForms p.1).isSome) = true := by rfl

theorem recVocab_target_has_form {k : String} {v : VocabEntry}
    (h : recognitionVocabulary k = some v) (ht : v.isTarget = true) :
    allTargetForms k ≠ none := by
  have hmem := (mapGet_mem h).1
  have hc := List.all_eq_true.mp recVocab_targets_covered_check _ hmem
  rw [ht] at hc
  simp only [Bool.not_true, Bool.false_or] at hc
  intro hnone
  rw [hnone] at hc
  cases hc

/-- If the target table hits, the classifier returns `target` (when the
canonical primary is fresh) or `repeat` (when it is already seen), with the
table's identity as `mappedId` — regardless of `allowDistractors` and of any
distractor-table entry for the same form. -/
theorem classifyToken_target_hit (now : Nat) (token : String) (seen : List String)
    (allow : Bool) {e : TargetEntry} (h : allTargetForms (normalize token) = some e) :
    (classifyToken now token seen allow).1.classification =
      (if seen.contains e.canonical then Classification.repeat else Classification.target) ∧
    (classifyToken now token seen allow).1.mappedId = some e.id ∧
    (classifyToken now token seen allow).2 =
      (if seen.contains e.canonical then seen else setAdd seen e.canonical) := by
  simp only [classifyToken]
  rw [h]
  by_cases hs : seen.contains e.canonical = true
  · have hmem : e.canonical ∈ seen := contains_iff.mp hs
    simp [hs, hmem]
  · have hmem : e.canonical ∉ seen := fun hm => hs (contains_iff.mpr hm)
    have hs' : seen.contains e.canonical = false := by
      cases hcb : seen.contains e.canonical
      · rfl
      · exact absurd hcb hs
    simp [hs', hmem]

/-- If the target table misses, `allowDistractors` is on, and the recognition
vocabulary hits a non-target item, the classifier returns `distractor` with
the item's identity and leaves the seen set unchanged. -/
theorem classifyToken_vocab_distractor (now : Nat) (token : String) (seen : List String)
    {v : VocabEntry} (hmiss : allTargetForms (normalize token) = none)
    (hv : recognitionVocabulary (normalize token) = some v) (hnt : v.isTarget = false) :
    (classifyToken now token seen true).1.classification = Classification.distractor ∧
    (classifyToken now token seen true).1.mappedId = some v.id ∧
    (classifyToken now token seen true).2 = seen := by
  simp only [classifyToken]
  rw [hmiss, hv]
  simp [hnt]

/-- If the target table misses and `allowDistractors` is off, a form in the
distractor set classifies as an intrusion carrying its normalized form, and
the seen set is unchanged. -/
theorem classifyToken_recall_distractor (now : Nat) (token : String) (seen : List String)
    (hmiss : allTargetForms (normalize token) = none)
    (hd : distractorForms.contains (normalize token) = true) :
    (classifyToken now token seen false).1.classification = Classification.intrusion ∧
    (classifyToken now token seen false).1.mappedId = some (normalize token) ∧
    (classifyToken now token seen false).2 = seen := by
  simp only [classifyToken]
  rw [hmiss]
  have hmem : normalize token ∈ distractorForms := contains_iff.mp hd
  simp [hd, hmem]

example (now : Nat) :
    (scoreRecallUtterance now ("sapato casa casa caminhão") []).hits = ["sapato", "casa"] := rfl

example (now : Nat) :
    ((scoreRecallUtterance now ("sapato casa casa caminhão") []).intrusions.map
      (fun t => t.normalized)) = ["caminhao"] := rfl

/-- Full case analysis of one classifier call: either the seen set is
unchanged and the token is not target-classified, or the target table hit a
fresh canonical primary, which is recorded into the seen set. -/
theorem classifyToken_cases (now : Nat) (token : String) (seen : List String) (allow : Bool) :
    ((classifyToken now token seen allow).2 = seen ∧
     (classifyToken now token seen allow).1.classification ≠ Classification.target) ∨
    (∃ e : TargetEntry,
      allTargetForms (normalize token) = some e ∧
      seen.contains e.canonical = false ∧
      (classifyToken now token seen allow).1.classification = Classification.target ∧
      (classifyToken now token seen allow).1.mappedId = some e.id ∧
      (classifyToken now token seen allow).2 = setAdd seen e.canonical) := by
  cases h : allTargetForms (normalize token) with
  | some e =>
      rcases classifyToken_target_hit now token seen allow h with ⟨h1, h2, h3⟩
      by_cases hs : seen.contains e.canonical = true
      · left
        rw [if_pos hs] at h1
        rw [if_pos hs] at h3
        refine ⟨h3, ?_⟩
        rw [h1]
        simp
      · right
        have hs' : seen.contains e.canonical = false := by
          cases hcb : seen.contains e.canonical
          · rfl
          · exact absurd hcb hs
        rw [if_neg hs] at h1
        rw [if_neg hs] at h3
        exact ⟨e, rfl, hs', h1, h2, h3⟩
  | none =>
      left
      cases allow with
      | false =>
          simp only [classifyToken]
          rw [h]
          by_cases hd : normalize token ∈ distractorForms <;> simp [hd]
      | true =>
          cases hv : recognitionVocabulary (normalize token) with
          | some v =>
              cases hvt : v.isTarget with
              | true => exact absurd h (recVocab_target_has_form hv hvt)
              | false =>
                  rcases classifyToken_vocab_distractor now token seen h hv hvt with ⟨h1, _, h3⟩
                  refine ⟨h3, ?_⟩
                  rw [h1]
                  simp
          | none =>
              simp only [classifyToken]
              rw [h, hv]
              by_cases hd : normalize token ∈ distractorForms <;> simp [hd]

theorem classifyTokens_cons_fst (now : Nat) (t : String) (rest : List String)
    (seen : List String) (allow : Bool) :
    (classifyTokens now (t :: rest) seen allow).1 =
      (classifyToken now t seen allow).1 ::
        (classifyTokens now rest (classifyToken now t seen allow).2 allow).1 := rfl

theorem classifyTokens_cons_snd (now : Nat) (t : String) (rest : List String)
    (seen : List String) (allow : Bool) :
    (classifyTokens now (t :: rest) seen allow).2 =
      (classifyTokens now rest (classifyToken now t seen allow).2 allow).2 := rfl

/-- The classifier's seen set only grows. -/
theorem classifyToken_seen_mono (now : Nat) (token : String) (seen : List String)
    (allow : Bool) {x : String} (hx : x ∈ seen) :
    x ∈ (classifyToken now token seen allow).2 := by
  rcases classifyToken_cases now token seen allow with ⟨h, _⟩ | ⟨e, _, _, _, _, h⟩
  · rw [h]; exact hx
  · rw [h]; exact mem_setAdd_of_mem hx

/-- Across a whole utterance: the seen set grows monotonically, and every
target-classified token carries a target identity whose canonical primary
was not in the initial seen set. -/
theorem classifyTokens_spec (now : Nat) (allow : Bool) :
    ∀ (toks : List String) (seen : List String),
      (∀ x, x ∈ seen → x ∈ (classifyTokens now toks seen allow).2) ∧
      (∀ t ∈ (classifyTokens now toks seen allow).1,
        t.classification = Classification.target →
        ∃ e : TargetEntry, t.mappedId = some e.id ∧ e.canonical = normalize e.id ∧
          e.canonical ∉ seen) := by
  intro toks
  induction toks with
  | nil =>
      intro seen
      exact ⟨fun x hx => hx, fun t ht => absurd ht (by simp [classifyTokens])⟩
  | cons t rest ih =>
      intro seen
      rcases ih (classifyToken now t seen allow).2 with ⟨ihmono, ihspec⟩
      constructor
      · intro x hx
        rw [classifyTokens_cons_snd]
        exact ihmono x (classifyToken_seen_mono now t seen allow hx)
      · intro tok htok hcls
        rw [classifyTokens_cons_fst] at htok
        rcases List.mem_cons.mp htok with rfl | hrest
        · rcases classifyToken_cases now t seen allow with ⟨_, hne⟩ | ⟨e, hsome, hfresh, _, hmap, _⟩
          · exact absurd hcls hne
          · refine ⟨e, hmap, targetForms_canonical hsome, ?_⟩
            intro hm
            rw [contains_iff.mpr hm] at hfresh
            cases hfresh
        · rcases ihspec tok hrest hcls with ⟨e, hmap, hcanon, hfresh⟩
          refine ⟨e, hmap, hcanon, ?_⟩
          intro hm
          exact hfresh (classifyToken_seen_mono now t seen allow hm)

/-- One recall call: the returned `hits` are duplicate-free and disjoint
from the identities already credited. -/
theorem scoreRecall_hits_ok (now : Nat) (transcript : String) (acc : List String) :
    (scoreRecallUtterance now transcript acc).hits.Nodup ∧
    ∀ a ∈ (scoreRecallUtterance now transcript acc).hits, a ∉ acc := by
  have hh : (scoreRecallUtterance now transcript acc).hits =
      keepFirst (targetIds (scoreRecallUtterance now transcript acc).tokens) := rfl
  constructor
  · rw [hh]; exact keepFirst_nodup _
  · intro a ha hacc
    rw [hh] at ha
    have hin := mem_keepFirst.mp ha
    unfold targetIds at hin
    rcases List.mem_map.mp hin with ⟨tok, htokmem, hgetd⟩
    rcases List.mem_filter.mp htokmem with ⟨htoks, hclsb⟩
    have hcls : tok.classification = Classification.target := by simpa using hclsb
    have htoks' : tok ∈ (classifyTokens now (tokenize transcript)
        (acc.map normalize) false).1 := htoks
    rcases (classifyTokens_spec now false (tokenize transcript) (acc.map normalize)).2
        tok htoks' hcls with ⟨e, hmap, hcanon, hfresh⟩
    have hida : e.id = a := by
      rw [hmap] at hgetd
      simpa using hgetd
    apply hfresh
    rw [hcanon, hida]
    exact List.mem_map_of_mem normalize hacc

/-- One recognition call: same freshness facts as recall. -/
theorem scoreRecognition_hits_ok (now : Nat) (transcript : String) (acc : List String) :
    (scoreRecognitionUtterance now transcript acc).hits.Nodup ∧
    ∀ a ∈ (scoreRecognitionUtterance now transcript acc).hits, a ∉ acc := by
  have hh : (scoreRecognitionUtterance now transcript acc).hits =
      keepFirst (targetIds (scoreRecognitionUtterance now transcript acc).tokens) := rfl
  constructor
  · rw [hh]; exact keepFirst_nodup _
  · intro a ha hacc
    rw [hh] at ha
    have hin := mem_keepFirst.mp ha
    unfold targetIds at hin
    rcases List.mem_map.mp hin with ⟨tok, htokmem, hgetd⟩
    rcases List.mem_filter.mp htokmem with ⟨htoks, hclsb⟩
    have hcls : tok.classification = Classification.target := by simpa using hclsb
    have htoks' : tok ∈ (classifyTokens now (tokenize transcript)
        (acc.map normalize) true).1 := htoks
    rcases (classifyTokens_spec now true (tokenize transcript) (acc.map normalize)).2
        tok htoks' hcls with ⟨e, hmap, hcanon, hfresh⟩
    have hida : e.id = a := by
      rw [hmap] at hgetd
      simpa using hgetd
    apply hfresh
    rw [hcanon, hida]
    exact List.mem_map_of_mem normalize hacc

theorem recallFold_nodup :
    ∀ (calls : List (Nat × String)) (acc : List String), acc.Nodup →
      (calls.foldl (fun acc c => acc ++ (scoreRecallUtterance c.1 c.2 acc).hits) acc).Nodup := by
  intro calls
  induction calls with
  | nil => intro acc h; exact h
  | cons c rest ih =>
      intro acc h
      simp only [List.foldl_cons]
      apply ih
      rcases scoreRecall_hits_ok c.1 c.2 acc with ⟨hnd, hfresh⟩
      exact List.Nodup.append h hnd (fun a ha hb => (hfresh a hb) ha)

theorem recognitionFold_nodup :
    ∀ (calls : List (Nat × String)) (acc : List String), acc.Nodup →
      (calls.foldl (fun acc c => acc ++ (scoreRecognitionUtterance c.1 c.2 acc).hits) acc).Nodup := by
  intro calls
  induction calls with
  | nil => intro acc h; exact h
  | cons c rest ih =>
      intro acc h
      simp only [List.foldl_cons]
      apply ih
      rcases scoreRecognition_hits_ok c.1 c.2 acc with ⟨hnd, hfresh⟩
      exact List.Nodup.append h hnd (fun a ha hb => (hfresh a hb) ha)

theorem FluInvCore_credit {seen0 animals seen : List String} {g : String}
    (h : FluInvCore seen0 animals seen) (hfresh : seen.contains g = false)
    (hg : normalize g = g) : FluInvCore seen0 (animals ++ [g]) (setAdd seen g) := by
  have hgnotseen : g ∉ seen := by
    intro hm
    rw [contains_iff.mpr hm] at hfresh
    cases hfresh
  refine ⟨?_, ?_, ?_⟩
  · refine List.Nodup.append h.1 (List.nodup_singleton g) ?_
    intro y hy hyg
    have : y = g := by simpa using hyg
    subst this
    exact hgnotseen (h.2.1 y hy).1
  · intro y hy
    rcases List.mem_append.mp hy with hy | hy
    · rcases h.2.1 y hy with ⟨h1, h2, h3⟩
      exact ⟨mem_setAdd_of_mem h1, h2, h3⟩
    · have : y = g := by simpa using hy
      subst this
      refine ⟨mem_setAdd_self seen y, ?_, hg⟩
      intro h0
      exact hgnotseen (h.2.2 y h0)
  · intro x hx
    exact mem_setAdd_of_mem (h.2.2 x hx)

theorem triStep_inv {seen0 : List String} (now : Nat) (words lookup : List String)
    {s : FluencyState} (i : Nat) (h : FluInv seen0 s) :
    FluInv seen0 (triStep now words lookup s i) := by
  unfold triStep
  split
  · exact h
  · dsimp only
    split
    · split
      · exact h
      · next hseen =>
          have hfresh : s.seen.contains (normalize (triRaw words i)) = false := by
            cases hcb : s.seen.contains (normalize (triRaw words i))
            · rfl
            · exact absurd hcb hseen
          exact FluInvCore_credit h hfresh (normalize_idem _)
    · exact h

theorem biStep_inv {seen0 : List String} (now : Nat) (words lookup : List String)
    {s : FluencyState} (i : Nat) (h : FluInv seen0 s) :
    FluInv seen0 (biStep now words lookup s i) := by
  unfold biStep
  split
  · exact h
  · dsimp only
    split
    · split
      · exact h
      · next hseen =>
          have hfresh : s.seen.contains (normalize (biRaw words i)) = false := by
            cases hcb : s.seen.contains (normalize (biRaw words i))
            · rfl
            · exact absurd hcb hseen
          exact FluInvCore_credit h hfresh (normalize_idem _)
    · exact h

theorem uniStep_inv {seen0 : List String} (now : Nat) (words lookup : List String)
    {s : FluencyState} (i : Nat) (h : FluInv seen0 s) :
    FluInv seen0 (uniStep now words lookup s i) := by
  unfold uniStep
  split
  · exact h
  · dsimp only
    split
    · split
      · exact h
      · next hseen =>
          have hfresh : s.seen.contains (normalize (words.getD i (""))) = false := by
            cases hcb : s.seen.contains (normalize (words.getD i ("")))
            · rfl
            · exact absurd hcb hseen
          exact FluInvCore_credit h hfresh (normalize_idem _)
    · exact h

/-- A property preserved by the step is preserved by the whole loop. -/
theorem passLoop_inv {P : FluencyState → Prop} (step : FluencyState → Nat → FluencyState)
    (hstep : ∀ s i, P s → P (step s i)) :
    ∀ (fuel i : Nat) (s : FluencyState), P s → P (passLoop step i fuel s) := by
  intro fuel
  induction fuel with
  | zero => intro i s h; exact h
  | succ n ih => intro i s h; exact ih (i+1) (step s i) (hstep s i h)

/-- One fluency call: the returned `animals` are duplicate-free, all already
normalized, and none was seeded through `alreadyProduced`. -/
theorem scoreFluency_animals_ok (now : Nat) (transcript : String) (dict acc : List String) :
    (scoreFluencyUtterance now transcript dict acc).animals.Nodup ∧
    ∀ y ∈ (scoreFluencyUtterance now transcript dict acc).animals,
      y ∉ acc.map normalize ∧ normalize y = y := by
  have hinit : FluInv (acc.map normalize) (fluInit acc) := by
    refine ⟨List.nodup_nil, ?_, ?_⟩
    · intro y hy; cases hy
    · intro x hx; exact hx
  have h1 : FluInv (acc.map normalize)
      (triPass now (tokenize transcript) (getNormalizedAnimals dict) (fluInit acc)) :=
    passLoop_inv _ (fun s i h => triStep_inv now _ _ i h) _ _ _ hinit
  have h2 : FluInv (acc.map normalize)
      (biPass now (tokenize transcript) (getNormalizedAnimals dict)
        (triPass now (tokenize transcript) (getNormalizedAnimals dict) (fluInit acc))) :=
    passLoop_inv _ (fun s i h => biStep_inv now _ _ i h) _ _ _ h1
  have h3 : FluInv (acc.map normalize)
      (uniPass now (tokenize transcript) (getNormalizedAnimals dict)
        (biPass now (tokenize transcript) (getNormalizedAnimals dict)
          (triPass now (tokenize transcript) (getNormalizedAnimals dict) (fluInit acc)))) :=
    passLoop_inv _ (fun s i h => uniStep_inv now _ _ i h) _ _ _ h2
  exact ⟨h3.1, fun y hy => ⟨(h3.2.1 y hy).2.1, (h3.2.1 y hy).2.2⟩⟩

theorem fluencyFold_ok (dict : List String) :
    ∀ (calls : List (Nat × String)) (acc : List String), acc.Nodup →
      (∀ x ∈ acc, normalize x = x) →
      (calls.foldl (fun acc c => acc ++ (scoreFluencyUtterance c.1 c.2 dict acc).animals)
        acc).Nodup := by
  intro calls
  induction calls with
  | nil => intro acc h _; exact h
  | cons c rest ih =>
      intro acc h hfix
      simp only [List.foldl_cons]
      rcases scoreFluency_animals_ok c.1 c.2 dict acc with ⟨hnd, hprops⟩
      apply ih
      · refine List.Nodup.append h hnd ?_
        intro a ha hb
        rcases hprops a hb with ⟨hnotin, _⟩
        apply hnotin
        apply List.mem_map.mpr
        exact ⟨a, ha, hfix a ha⟩
      · intro x hx
        rcases List.mem_append.mp hx with hx | hx
        · exact hfix x hx
        · exact (hprops x hx).2

theorem triStep_shape (now : Nat) (words lookup : List String) {s : FluencyState} (i : Nat)
    (h : ShapeInv s) : ShapeInv (triStep now words lookup s i) := by
  unfold triStep
  split
  · exact h
  · dsimp only
    split
    · split
      · refine ⟨h.1, h.2.1, h.2.2.1, ?_⟩
        intro t ht
        rcases List.mem_append.mp ht with ht | ht
        · exact h.2.2.2 t ht
        · have ht' := List.mem_singleton.mp ht
          subst ht'
          rfl
      · refine ⟨?_, ?_, ?_, h.2.2.2⟩
        · simp [List.filter_append, List.map_append, h.1]
        · simp [List.filter_append, h.2.1]
        · intro t ht
          rcases List.mem_append.mp ht with ht | ht
          · exact h.2.2.1 t ht
          · have ht' := List.mem_singleton.mp ht
            subst ht'
            left
            rfl
    · exact h

theorem biStep_shape (now : Nat) (words lookup : List String) {s : FluencyState} (i : Nat)
    (h : ShapeInv s) : ShapeInv (biStep now words lookup s i) := by
  unfold biStep
  split
  · exact h
  · dsimp only
    split
    · split
      · refine ⟨h.1, h.2.1, h.2.2.1, ?_⟩
        intro t ht
        rcases List.mem_append.mp ht with ht | ht
        · exact h.2.2.2 t ht
        · have ht' := List.mem_singleton.mp ht
          subst ht'
          rfl
      · refine ⟨?_, ?_, ?_, h.2.2.2⟩
        · simp [List.filter_append, List.map_append, h.1]
        · simp [List.filter_append, h.2.1]
        · intro t ht
          rcases List.mem_append.mp ht with ht | ht
          · exact h.2.2.1 t ht
          · have ht' := List.mem_singleton.mp ht
            subst ht'
            left
            rfl
    · exact h

theorem uniStep_shape (now : Nat) (words lookup : List String) {s : FluencyState} (i : Nat)
    (h : ShapeInv s) : ShapeInv (uniStep now words lookup s i) := by
  unfold uniStep
  split
  · exact h
  · dsimp only
    split
    · split
      · refine ⟨h.1, h.2.1, h.2.2.1, ?_⟩
        intro t ht
        rcases List.mem_append.mp ht with ht | ht
        · exact h.2.2.2 t ht
        · have ht' := List.mem_singleton.mp ht
          subst ht'
          rfl
      · refine ⟨?_, ?_, ?_, h.2.2.2⟩
        · simp [List.filter_append, List.map_append, h.1]
        · simp [List.filter_append, h.2.1]
        · intro t ht
          rcases List.mem_append.mp ht with ht | ht
          · exact h.2.2.1 t ht
          · have ht' := List.mem_singleton.mp ht
            subst ht'
            left
            rfl
    · refine ⟨?_, ?_, ?_, h.2.2.2⟩
      · simp [List.filter_append, List.map_append, h.1]
      · simp [List.filter_append, h.2.1]
      · intro t ht
        rcases List.mem_append.mp ht with ht | ht
        · exact h.2.2.1 t ht
        · have ht' := List.mem_singleton.mp ht
          subst ht'
          right
          rfl

theorem length_filter_partition :
    ∀ {l : List SpokenToken},
      (∀ t ∈ l, t.classification = Classification.target ∨
        t.classification = Classification.intrusion) →
      l.length = (l.filter (fun t => t.classification == Classification.target)).length +
        (l.filter (fun t => t.classification == Classification.intrusion)).length := by
  intro l
  induction l with
  | nil => intro _; rfl
  | cons a t ih =>
      intro h
      have ha := h a (List.mem_cons_self a t)
      have ht := ih (fun x hx => h x (List.mem_cons_of_mem a hx))
      rcases ha with ha | ha
      · simp only [List.filter_cons, ha, List.length_cons]
        simp only [ha] at ht ⊢
        simp [ht]
        omega
      · simp only [List.filter_cons, ha, List.length_cons]
        simp only [ha] at ht ⊢
        simp [ht]
        omega

theorem scoreFluency_shape (now : Nat) (transcript : String) (dict acc : List String) :
    ShapeInv (uniPass now (tokenize transcript) (getNormalizedAnimals dict)
      (biPass now (tokenize transcript) (getNormalizedAnimals dict)
        (triPass now (tokenize transcript) (getNormalizedAnimals dict) (fluInit acc)))) := by
  have hinit : ShapeInv (fluInit acc) := by
    refine ⟨rfl, rfl, ?_, ?_⟩
    · intro t ht; cases ht
    · intro t ht; cases ht
  have h1' : ShapeInv (triPass now (tokenize transcript) (getNormalizedAnimals dict)
      (fluInit acc)) :=
    passLoop_inv _ (fun s i h => triStep_shape now (tokenize transcript)
      (getNormalizedAnimals dict) i h) _ _ _ hinit
  have h2' : ShapeInv (biPass now (tokenize transcript) (getNormalizedAnimals dict)
      (triPass now (tokenize transcript) (getNormalizedAnimals dict) (fluInit acc))) :=
    passLoop_inv _ (fun s i h => biStep_shape now (tokenize transcript)
      (getNormalizedAnimals dict) i h) _ _ _ h1'
  exact passLoop_inv _ (fun s i h => uniStep_shape now (tokenize transcript)
    (getNormalizedAnimals dict) i h) _ _ _ h2'

theorem contains_eq_false {α : Type} [BEq α] [LawfulBEq α] {l : List α} {x : α}
    (h : x ∉ l) : l.contains x = false := by
  cases hc : l.contains x
  · rfl
  · exact absurd (contains_iff.mp hc) h

/-- The trigram step only grows the consumed set. -/
theorem triStep_consumed_mono (now : Nat) (words lookup : List String) (s : FluencyState)
    (i : Nat) {x : Nat} (hx : x ∈ s.consumed) :
    x ∈ (triStep now words lookup s i).consumed := by
  unfold triStep
  split
  · exact hx
  · dsimp only
    split
    · split
      · exact mem_setAdd_of_mem (mem_setAdd_of_mem (mem_setAdd_of_mem hx))
      · exact mem_setAdd_of_mem (mem_setAdd_of_mem (mem_setAdd_of_mem hx))
    · exact hx

theorem biStep_consumed_mono (now : Nat) (words lookup : List String) (s : FluencyState)
    (i : Nat) {x : Nat} (hx : x ∈ s.consumed) :
    x ∈ (biStep now words lookup s i).consumed := by
  unfold biStep
  split
  · exact hx
  · dsimp only
    split
    · split
      · exact mem_setAdd_of_mem (mem_setAdd_of_mem hx)
      · exact mem_setAdd_of_mem (mem_setAdd_of_mem hx)
    · exact hx

theorem uniStep_consumed_mono (now : Nat) (words lookup : List String) (s : FluencyState)
    (i : Nat) {x : Nat} (hx : x ∈ s.consumed) :
    x ∈ (uniStep now words lookup s i).consumed := by
  unfold uniStep
  split
  · exact hx
  · dsimp only
    split
    · split
      · exact mem_setAdd_of_mem hx
      · exact mem_setAdd_of_mem hx
    · exact mem_setAdd_of_mem hx

/-- The trigram step only appends to `animals` and `repeats`: an already
credited animal or repeat persists. -/
theorem triStep_credit_mono (now : Nat) (words lookup : List String) (s : FluencyState)
    (i : Nat) {g : String}
    (hg : g ∈ s.animals ∨ g ∈ s.repeats.map (fun t => t.normalized)) :
    g ∈ (triStep now words lookup s i).animals ∨
      g ∈ ((triStep now words lookup s i).repeats.map (fun t => t.normalized)) := by
  unfold triStep
  split
  · exact hg
  · dsimp only
    split
    · split
      · rcases hg with hg | hg
        · exact Or.inl hg
        · right
          rw [List.map_append]
          exact List.mem_append_left _ hg
      · rcases hg with hg | hg
        · exact Or.inl (List.mem_append_left _ hg)
        · exact Or.inr hg
    · exact hg

theorem biStep_credit_mono (now : Nat) (words lookup : List String) (s : FluencyState)
    (i : Nat) {g : String}
    (hg : g ∈ s.animals ∨ g ∈ s.repeats.map (fun t => t.normalized)) :
    g ∈ (biStep now words lookup s i).animals ∨
      g ∈ ((biStep now words lookup s i).repeats.map (fun t => t.normalized)) := by
  unfold biStep
  split
  · exact hg
  · dsimp only
    split
    · split
      · rcases hg with hg | hg
        · exact Or.inl hg
        · right
          rw [List.map_append]
          exact List.mem_append_left _ hg
      · rcases hg with hg | hg
        · exact Or.inl (List.mem_append_left _ hg)
        · exact Or.inr hg
    · exact hg

theorem uniStep_credit_mono (now : Nat) (words lookup : List String) (s : FluencyState)
    (i : Nat) {g : String}
    (hg : g ∈ s.animals ∨ g ∈ s.repeats.map (fun t => t.normalized)) :
    g ∈ (uniStep now words lookup s i).animals ∨
      g ∈ ((uniStep now words lookup s i).repeats.map (fun t => t.normalized)) := by
  unfold uniStep
  split
  · exact hg
  · dsimp only
    split
    · split
      · rcases hg with hg | hg
        · exact Or.inl hg
        · right
          rw [List.map_append]
          exact List.mem_append_left _ hg
      · rcases hg with hg | hg
        · exact Or.inl (List.mem_append_left _ hg)
        · exact Or.inr hg
    · rcases hg with hg | hg
      · exact Or.inl hg
      · exact Or.inr hg

/-- A matched trigram window at `i` with all three positions unconsumed is
consumed whole, and its normalized phrase is credited (to `animals` when
fresh, to `repeats` when already produced). -/
theorem triStep_at_i (now : Nat) (words lookup : List String) {s : FluencyState} (i : Nat)
    (hni : i ∉ s.consumed) (hni1 : (i+1) ∉ s.consumed) (hni2 : (i+2) ∉ s.consumed)
    (h2 : lookup.contains (normalize (triRaw words i)) = true) :
    i ∈ (triStep now words lookup s i).consumed ∧
    (i+1) ∈ (triStep now words lookup s i).consumed ∧
    (i+2) ∈ (triStep now words lookup s i).consumed ∧
    (normalize (triRaw words i) ∈ (triStep now words lookup s i).animals ∨
      normalize (triRaw words i) ∈
        ((triStep now words lookup s i).repeats.map (fun t => t.normalized))) := by
  have hgP : ¬((s.consumed.contains i || s.consumed.contains (i+1) ||
      s.consumed.contains (i+2)) = true) := by
    simp only [Bool.or_eq_true, not_or]
    exact ⟨⟨fun h => hni (contains_iff.mp h), fun h => hni1 (contains_iff.mp h)⟩,
      fun h => hni2 (contains_iff.mp h)⟩
  unfold triStep
  rw [if_neg hgP]
  dsimp only
  rw [if_pos h2]
  split
  · refine ⟨?_, ?_, ?_, ?_⟩
    · exact mem_setAdd_of_mem (mem_setAdd_of_mem (mem_setAdd_self _ _))
    · exact mem_setAdd_of_mem (mem_setAdd_self _ _)
    · exact mem_setAdd_self _ _
    · right
      rw [List.map_append]
      apply List.mem_append_right
      simp
  · refine ⟨?_, ?_, ?_, ?_⟩
    · exact mem_setAdd_of_mem (mem_setAdd_of_mem (mem_setAdd_self _ _))
    · exact mem_setAdd_of_mem (mem_setAdd_self _ _)
    · exact mem_setAdd_self _ _
    · left
      exact List.mem_append_right _ (by simp)

/-- An earlier trigram iteration `j < i` cannot consume any of the positions
`i`, `i+1`, `i+2` when every window overlapping `i..i+2` from the left is
absent from the dictionary. -/
theorem triStep_preserves_free (now : Nat) (words lookup : List String) {s : FluencyState}
    {j i : Nat} (_hj : j < i)
    (h3 : i < j + 3 → lookup.contains (normalize (triRaw words j)) = false)
    (hni : i ∉ s.consumed) (hni1 : (i+1) ∉ s.consumed) (hni2 : (i+2) ∉ s.consumed) :
    i ∉ (triStep now words lookup s j).consumed ∧
    (i+1) ∉ (triStep now words lookup s j).consumed ∧
    (i+2) ∉ (triStep now words lookup s j).consumed := by
  unfold triStep
  split
  · exact ⟨hni, hni1, hni2⟩
  · dsimp only
    by_cases hd : lookup.contains (normalize (triRaw words j)) = true
    · have hle : j + 3 ≤ i := by
        by_contra hlt
        push_neg at hlt
        rw [h3 hlt] at hd
        cases hd
      rw [if_pos hd]
      constructor
      · split
        all_goals {
          intro hmem
          rcases mem_setAdd_iff.mp hmem with hmem | h'
          · rcases mem_setAdd_iff.mp hmem with hmem | h'
            · rcases mem_setAdd_iff.mp hmem with hmem | h'
              · exact hni hmem
              · omega
            · omega
          · omega
        }
      constructor
      · split
        all_goals {
          intro hmem
          rcases mem_setAdd_iff.mp hmem with hmem | h'
          · rcases mem_setAdd_iff.mp hmem with hmem | h'
            · rcases mem_setAdd_iff.mp hmem with hmem | h'
              · exact hni1 hmem
              · omega
            · omega
          · omega
        }
      · split
        all_goals {
          intro hmem
          rcases mem_setAdd_iff.mp hmem with hmem | h'
          · rcases mem_setAdd_iff.mp hmem with hmem | h'
            · rcases mem_setAdd_iff.mp hmem with hmem | h'
              · exact hni2 hmem
              · omega
            · omega
          · omega
        }
    · rw [if_neg hd]
      exact ⟨hni, hni1, hni2⟩

/-- Through the whole trigram loop: an unobstructed dictionary trigram at
`i` ends up consumed and credited. -/
theorem triLoop_credits (now : Nat) (words lookup : List String) (i : Nat)
    (h2 : lookup.contains (normalize (triRaw words i)) = true)
    (h3 : ∀ j, j < i → i < j + 3 → lookup.contains (normalize (triRaw words j)) = false) :
    ∀ (fuel j : Nat) (s : FluencyState), j ≤ i → i < j + fuel →
      i ∉ s.consumed → (i+1) ∉ s.consumed → (i+2) ∉ s.consumed →
      i ∈ (passLoop (triStep now words lookup) j fuel s).consumed ∧
      (i+1) ∈ (passLoop (triStep now words lookup) j fuel s).consumed ∧
      (i+2) ∈ (passLoop (triStep now words lookup) j fuel s).consumed ∧
      (normalize (triRaw words i) ∈ (passLoop (triStep now words lookup) j fuel s).animals ∨
       normalize (triRaw words i) ∈
         ((passLoop (triStep now words lookup) j fuel s).repeats.map (fun t => t.normalized))) := by
  intro fuel
  induction fuel with
  | zero =>
      intro j s hji hfuel _ _ _
      omega
  | succ n ih =>
      intro j s hji hfuel hni hni1 hni2
      by_cases hij : j = i
      · subst hij
        have hstep := triStep_at_i now words lookup j hni hni1 hni2 h2
        have hm1 := passLoop_inv (triStep now words lookup)
          (fun s' k h => triStep_consumed_mono now words lookup s' k h) n (j+1)
          (triStep now words lookup s j) hstep.1
        have hm2 := passLoop_inv (triStep now words lookup)
          (fun s' k h => triStep_consumed_mono now words lookup s' k h) n (j+1)
          (triStep now words lookup s j) hstep.2.1
        have hm3 := passLoop_inv (triStep now words lookup)
          (fun s' k h => triStep_consumed_mono now words lookup s' k h) n (j+1)
          (triStep now words lookup s j) hstep.2.2.1
        have hm4 := passLoop_inv (triStep now words lookup)
          (fun s' k h => triStep_credit_mono now words lookup s' k h) n (j+1)
          (triStep now words lookup s j) hstep.2.2.2
        exact ⟨hm1, hm2, hm3, hm4⟩
      · have hjlt : j < i := by omega
        have hpres := triStep_preserves_free now words lookup hjlt (h3 j hjlt) hni hni1 hni2
        exact ih (j+1) (triStep now words lookup s j) (by omega) (by omega)
          hpres.1 hpres.2.1 hpres.2.2

/-- Every token present after the bigram loop either was already there or
arises from a 2-word window both of whose positions were unconsumed when the
loop started. -/
theorem biLoop_tokens_src (now : Nat) (words lookup : List String) :
    ∀ (fuel j : Nat) (s : FluencyState) (t : SpokenToken),
      t ∈ (passLoop (biStep now words lookup) j fuel s).tokens →
      t ∈ s.tokens ∨ ∃ k, k ∉ s.consumed ∧ (k+1) ∉ s.consumed ∧ t.raw = biRaw words k := by
  intro fuel
  induction fuel with
  | zero => intro j s t ht; exact Or.inl ht
  | succ n ih =>
      intro j s t ht
      rcases ih (j+1) (biStep now words lookup s j) t ht with ht' | ⟨k, hk, hk1, hraw⟩
      · revert ht'
        unfold biStep
        split
        · exact fun ht' => Or.inl ht'
        · next hg =>
            dsimp only
            split
            · split
              · exact fun ht' => Or.inl ht'
              · intro ht'
                rcases List.mem_append.mp ht' with ht' | ht'
                · exact Or.inl ht'
                · have ht'' := List.mem_singleton.mp ht'
                  subst ht''
                  right
                  have hgj : j ∉ s.consumed ∧ (j+1) ∉ s.consumed := by
                    simp only [Bool.or_eq_true, not_or] at hg
                    exact ⟨fun hm => hg.1 (contains_iff.mpr hm),
                      fun hm => hg.2 (contains_iff.mpr hm)⟩
                  exact ⟨j, hgj.1, hgj.2, rfl⟩
            · exact fun ht' => Or.inl ht'
      · right
        exact ⟨k, fun hm => hk (biStep_consumed_mono now words lookup s j hm),
          fun hm => hk1 (biStep_consumed_mono now words lookup s j hm), hraw⟩

/-- Same as `biLoop_tokens_src`, for the repeats list. -/
theorem biLoop_repeats_src (now : Nat) (words lookup : List String) :
    ∀ (fuel j : Nat) (s : FluencyState) (t : SpokenToken),
      t ∈ (passLoop (biStep now words lookup) j fuel s).repeats →
      t ∈ s.repeats ∨ ∃ k, k ∉ s.consumed ∧ (k+1) ∉ s.consumed ∧ t.raw = biRaw words k := by
  intro fuel
  induction fuel with
  | zero => intro j s t ht; exact Or.inl ht
  | succ n ih =>
      intro j s t ht
      rcases ih (j+1) (biStep now words lookup s j) t ht with ht' | ⟨k, hk, hk1, hraw⟩
      · revert ht'
        unfold biStep
        split
        · exact fun ht' => Or.inl ht'
        · next hg =>
            dsimp only
            split
            · split
              · intro ht'
                rcases List.mem_append.mp ht' with ht' | ht'
                · exact Or.inl ht'
                · have ht'' := List.mem_singleton.mp ht'
                  subst ht''
                  right
                  have hgj : j ∉ s.consumed ∧ (j+1) ∉ s.consumed := by
                    simp only [Bool.or_eq_true, not_or] at hg
                    exact ⟨fun hm => hg.1 (contains_iff.mpr hm),
                      fun hm => hg.2 (contains_iff.mpr hm)⟩
                  exact ⟨j, hgj.1, hgj.2, rfl⟩
              · exact fun ht' => Or.inl ht'
            · exact fun ht' => Or.inl ht'
      · right
        exact ⟨k, fun hm => hk (biStep_consumed_mono now words lookup s j hm),
          fun hm => hk1 (biStep_consumed_mono now words lookup s j hm), hraw⟩

/-- Every token present after the unigram loop either was already there or
arises from a single word position unconsumed when the loop started. -/
theorem uniLoop_tokens_src (now : Nat) (words lookup : List String) :
    ∀ (fuel j : Nat) (s : FluencyState) (t : SpokenToken),
      t ∈ (passLoop (uniStep now words lookup) j fuel s).tokens →
      t ∈ s.tokens ∨ ∃ k, k ∉ s.consumed ∧ t.raw = words.getD k ("") := by
  intro fuel
  induction fuel with
  | zero => intro j s t ht; exact Or.inl ht
  | succ n ih =>
      intro j s t ht
      rcases ih (j+1) (uniStep now words lookup s j) t ht with ht' | ⟨k, hk, hraw⟩
      · revert ht'
        unfold uniStep
        split
        · exact fun ht' => Or.inl ht'
        · next hg =>
            have hgj : j ∉ s.consumed := fun hm => hg (contains_iff.mpr hm)
            dsimp only
            split
            · split
              · exact fun ht' => Or.inl ht'
              · intro ht'
                rcases List.mem_append.mp ht' with ht' | ht'
                · exact Or.inl ht'
                · have ht'' := List.mem_singleton.mp ht'
                  subst ht''
                  exact Or.inr ⟨j, hgj, rfl⟩
            · intro ht'
              rcases List.mem_append.mp ht' with ht' | ht'
              · exact Or.inl ht'
              · have ht'' := List.mem_singleton.mp ht'
                subst ht''
                exact Or.inr ⟨j, hgj, rfl⟩
      · right
        exact ⟨k, fun hm => hk (uniStep_consumed_mono now words lookup s j hm), hraw⟩

/-- Same as `uniLoop_tokens_src`, for the repeats list. -/
theorem uniLoop_repeats_src (now : Nat) (words lookup : List String) :
    ∀ (fuel j : Nat) (s : FluencyState) (t : SpokenToken),
      t ∈ (passLoop (uniStep now words lookup) j fuel s).repeats →
      t ∈ s.repeats ∨ ∃ k, k ∉ s.consumed ∧ t.raw = words.getD k ("") := by
  intro fuel
  induction fuel with
  | zero => intro j s t ht; exact Or.inl ht
  | succ n ih =>
      intro j s t ht
      rcases ih (j+1) (uniStep now words lookup s j) t ht with ht' | ⟨k, hk, hraw⟩
      · revert ht'
        unfold uniStep
        split
        · exact fun ht' => Or.inl ht'
        · next hg =>
            have hgj : j ∉ s.consumed := fun hm => hg (contains_iff.mpr hm)
            dsimp only
            split
            · split
              · intro ht'
                rcases List.mem_append.mp ht' with ht' | ht'
                · exact Or.inl ht'
                · have ht'' := List.mem_singleton.mp ht'
                  subst ht''
                  exact Or.inr ⟨j, hgj, rfl⟩
              · exact fun ht' => Or.inl ht'
            · exact fun ht' => Or.inl ht'
      · right
        exact ⟨k, fun hm => hk (uniStep_consumed_mono now words lookup s j hm), hraw⟩

theorem classifyToken_time (n : Nat) (token : String) (seen : List String) (allow : Bool) :
    classifyToken n token seen allow =
      (withTime n (classifyToken 0 token seen allow).1,
       (classifyToken 0 token seen allow).2) := by
  simp only [classifyToken]
  cases h : allTargetForms (normalize token) with
  | some e =>
      by_cases hs : e.canonical ∈ seen
      · simp [hs, withTime]
      · simp [hs, withTime]
  | none =>
      cases allow with
      | false =>
          by_cases hd : normalize token ∈ distractorForms
          · simp [hd, withTime]
          · simp [hd, withTime]
      | true =>
          cases hv : recognitionVocabulary (normalize token) with
          | some v =>
              cases hvt : v.isTarget with
              | true => simp [hvt, withTime]
              | false => simp [hvt, withTime]
          | none =>
              by_cases hd : normalize token ∈ distractorForms
              · simp [hd, withTime]
              · simp [hd, withTime]

theorem classifyTokens_time (n : Nat) (allow : Bool) :
    ∀ (toks : List String) (seen : List String),
      classifyTokens n toks seen allow =
        ((classifyTokens 0 toks seen allow).1.map (withTime n),
         (classifyTokens 0 toks seen allow).2) := by
  intro toks
  induction toks with
  | nil => intro seen; rfl
  | cons t rest ih =>
      intro seen
      simp only [classifyTokens]
      rw [classifyToken_time n t seen allow]
      dsimp only
      rw [ih ((classifyToken 0 t seen allow).2)]
      rfl

theorem withTime_classification (n : Nat) (t : SpokenToken) :
    (withTime n t).classification = t.classification := rfl

theorem withTime_mappedId (n : Nat) (t : SpokenToken) :
    (withTime n t).mappedId = t.mappedId := rfl

theorem filterClass_withTime (n : Nat) (c : Classification) :
    ∀ l : List SpokenToken,
      (l.map (withTime n)).filter (fun t => t.classification == c) =
        (l.filter (fun t => t.classification == c)).map (withTime n) := by
  intro l
  induction l with
  | nil => rfl
  | cons a t ih =>
      simp only [List.map_cons, List.filter_cons, withTime_classification]
      by_cases hc : (a.classification == c) = true
      · rw [if_pos hc, if_pos hc, ih]
        rfl
      · rw [if_neg hc, if_neg hc]
        exact ih

theorem targetIds_withTime (n : Nat) (l : List SpokenToken) :
    targetIds (l.map (withTime n)) = targetIds l := by
  unfold targetIds
  rw [filterClass_withTime]
  rw [List.map_map]
  congr 1

theorem scoreRecall_time (n : Nat) (t : String) (a : List String) :
    scoreRecallUtterance n t a =
      { tokens := (scoreRecallUtterance 0 t a).tokens.map (withTime n),
        hits := (scoreRecallUtterance 0 t a).hits,
        intrusions := (scoreRecallUtterance 0 t a).intrusions.map (withTime n),
        repeats := (scoreRecallUtterance 0 t a).repeats.map (withTime n) } := by
  unfold scoreRecallUtterance
  dsimp only
  rw [classifyTokens_time n false (tokenize t) (a.map normalize)]
  dsimp only
  rw [targetIds_withTime, filterClass_withTime, filterClass_withTime]

theorem scoreRecognition_time (n : Nat) (t : String) (a : List String) :
    scoreRecognitionUtterance n t a =
      { tokens := (scoreRecognitionUtterance 0 t a).tokens.map (withTime n),
        hits := (scoreRecognitionUtterance 0 t a).hits,
        distractorHits := (scoreRecognitionUtterance 0 t a).distractorHits.map (withTime n),
        intrusions := (scoreRecognitionUtterance 0 t a).intrusions.map (withTime n),
        repeats := (scoreRecognitionUtterance 0 t a).repeats.map (withTime n) } := by
  unfold scoreRecognitionUtterance
  dsimp only
  rw [classifyTokens_time n true (tokenize t) (a.map normalize)]
  dsimp only
  rw [targetIds_withTime, filterClass_withTime, filterClass_withTime, filterClass_withTime]

theorem triStep_time (n : Nat) (words lookup : List String) (s : FluencyState) (i : Nat) :
    triStep n words lookup (timeState n s) i = timeState n (triStep 0 words lookup s i) := by
  unfold triStep timeState
  dsimp only
  split
  · rfl
  · split
    · split
      · simp [withTime]
      · simp [withTime]
    · rfl

theorem biStep_time (n : Nat) (words lookup : List String) (s : FluencyState) (i : Nat) :
    biStep n words lookup (timeState n s) i = timeState n (biStep 0 words lookup s i) := by
  unfold biStep timeState
  dsimp only
  split
  · rfl
  · split
    · split
      · simp [withTime]
      · simp [withTime]
    · rfl

theorem uniStep_time (n : Nat) (words lookup : List String) (s : FluencyState) (i : Nat) :
    uniStep n words lookup (timeState n s) i = timeState n (uniStep 0 words lookup s i) := by
  unfold uniStep timeState
  dsimp only
  split
  · rfl
  · split
    · split
      · simp [withTime]
      · simp [withTime]
    · simp [withTime]

theorem passLoop_time {n : Nat} {stepN step0 : FluencyState → Nat → FluencyState}
    (hcomm : ∀ s i, stepN (timeState n s) i = timeState n (step0 s i)) :
    ∀ (fuel j : Nat) (s : FluencyState),
      passLoop stepN j fuel (timeState n s) = timeState n (passLoop step0 j fuel s) := by
  intro fuel
  induction fuel with
  | zero => intro j s; rfl
  | succ m ih =>
      intro j s
      show passLoop stepN (j+1) m (stepN (timeState n s) j) =
        timeState n (passLoop step0 (j+1) m (step0 s j))
      rw [hcomm s j]
      exact ih (j+1) (step0 s j)

theorem timeState_fluInit (n : Nat) (a : List String) :
    timeState n (fluInit a) = fluInit a := by
  unfold timeState fluInit
  rfl

theorem scoreFluency_time (n : Nat) (t : String) (dict a : List String) :
    scoreFluencyUtterance n t dict a =
      { tokens := (scoreFluencyUtterance 0 t dict a).tokens.map (withTime n),
        animals := (scoreFluencyUtterance 0 t dict a).animals,
        invalid := (scoreFluencyUtterance 0 t dict a).invalid.map (withTime n),
        repeats := (scoreFluencyUtterance 0 t dict a).repeats.map (withTime n) } := by
  unfold scoreFluencyUtterance triPass biPass uniPass
  dsimp only
  rw [← timeState_fluInit n a]
  rw [passLoop_time (fun s i => triStep_time n (tokenize t) (getNormalizedAnimals dict) s i)]
  rw [passLoop_time (fun s i => biStep_time n (tokenize t) (getNormalizedAnimals dict) s i)]
  rw [passLoop_time (fun s i => uniStep_time n (tokenize t) (getNormalizedAnimals dict) s i)]
  rfl

theorem biPass_consumed_mono (now : Nat) (words lookup : List String) (s : FluencyState)
    {x : Nat} (hx : x ∈ s.consumed) : x ∈ (biPass now words lookup s).consumed := by
  unfold biPass
  exact @passLoop_inv (fun st => x ∈ st.consumed) (biStep now words lookup)
    (fun s' k h => biStep_consumed_mono now words lookup s' k h) (words.length - 1) 0 s hx

theorem biPass_credit_mono (now : Nat) (words lookup : List String) (s : FluencyState)
    {g : String} (hg : g ∈ s.animals ∨ g ∈ s.repeats.map (fun t => t.normalized)) :
    g ∈ (biPass now words lookup s).animals ∨
      g ∈ ((biPass now words lookup s).repeats.map (fun t => t.normalized)) := by
  unfold biPass
  exact @passLoop_inv (fun st => g ∈ st.animals ∨ g ∈ st.repeats.map (fun t => t.normalized))
    (biStep now words lookup)
    (fun s' k h => biStep_credit_mono now words lookup s' k h) (words.length - 1) 0 s hg

theorem uniPass_credit_mono (now : Nat) (words lookup : List String) (s : FluencyState)
    {g : String} (hg : g ∈ s.animals ∨ g ∈ s.repeats.map (fun t => t.normalized)) :
    g ∈ (uniPass now words lookup s).animals ∨
      g ∈ ((uniPass now words lookup s).repeats.map (fun t => t.normalized)) := by
  unfold uniPass
  exact @passLoop_inv (fun st => g ∈ st.animals ∨ g ∈ st.repeats.map (fun t => t.normalized))
    (uniStep now words lookup)
    (fun s' k h => uniStep_credit_mono now words lookup s' k h) words.length 0 s hg

/-- C6: canonicalization is idempotent: for every string `s`,
`normalize (normalize s) = normalize s`, where `normalize` is NFD
decomposition, removal of the combining marks U+0300..U+036F, lower-casing
and trimming. -/
theorem C6_normalize_idempotent : ∀ s : String, normalize (normalize s) = normalize s :=
  normalize_idem

/-- C1: within one phase lifetime, when every call is seeded with the
identities credited by the earlier calls, the merged `hits` list of the
recall scorer, the merged `hits` list of the recognition scorer, and the
merged `animals` list of the n-gram fluency scorer (for any dictionary)
contain each identity at most once. -/
theorem C1_no_double_counting :
    ∀ (calls : List (Nat × String)),
      (runRecallHits calls).Nodup ∧
      (runRecognitionHits calls).Nodup ∧
      ∀ validAnimals : List String, (runFluencyAnimals validAnimals calls).Nodup := by
  intro calls
  refine ⟨recallFold_nodup calls [] List.nodup_nil,
    recognitionFold_nodup calls [] List.nodup_nil, ?_⟩
  intro dict
  exact fluencyFold_ok dict calls [] List.nodup_nil (fun x hx => absurd hx (List.not_mem_nil x))

/-- C3: the target-table lookup takes precedence over every other lookup:
whenever the canonical form of a token is registered in the target table (in
particular when it is simultaneously a distractor canonical form), the
classifier resolves it as `target` (fresh) or `repeat` (already seen) with
the table's identity, never as `distractor` or `intrusion` — for both
`allowDistractors = false` (recall) and `allowDistractors = true`
(recognition). -/
theorem C3_target_precedence :
    ∀ (now : Nat) (token : String) (seen : List String) (allow : Bool) (e : TargetEntry),
      allTargetForms (normalize token) = some e →
      (classifyToken now token seen allow).1.classification =
        (if seen.contains e.canonical then Classification.repeat
         else Classification.target) ∧
      (classifyToken now token seen allow).1.mappedId = some e.id ∧
      (classifyToken now token seen allow).1.classification ≠ Classification.distractor ∧
      (classifyToken now token seen allow).1.classification ≠ Classification.intrusion := by
  intro now token seen allow e h
  rcases classifyToken_target_hit now token seen allow h with ⟨h1, h2, _⟩
  refine ⟨h1, h2, ?_, ?_⟩
  · rw [h1]
    by_cases hs : e.canonical ∈ seen <;> simp [hs]
  · rw [h1]
    by_cases hs : e.canonical ∈ seen <;> simp [hs]

/-- Witness for C3 at the token "sapatos" (a synonym of target "sapato"). -/
theorem C3_target_precedence_witness :
    (allTargetForms (normalize ("sapatos")) = some ⟨"sapato", "sapato"⟩) ∧
    (classifyToken 0 ("sapatos") [] true).1.classification ≠ Classification.distractor := by
  have h : allTargetForms (normalize ("sapatos")) = some ⟨"sapato", "sapato"⟩ := by rfl
  exact ⟨h, (C3_target_precedence 0 ("sapatos") [] true ⟨"sapato", "sapato"⟩ h).2.2.1⟩

/-- C4: in recognition scoring, a token whose canonical form is a non-target
recognition item classifies as `distractor` and is returned in
`distractorHits`, never in `intrusions`; and the recognition scenario
`scoreRecognition("avião chaleira árvore avião", [])` yields hits
`["avião","árvore"]`, a distractor hit with canonical text "chaleira", and
exactly one repeat. -/
theorem C4_recognition_distractor :
    (∀ (now : Nat) (token : String) (seen : List String) (v : VocabEntry),
      allTargetForms (normalize token) = none →
      recognitionVocabulary (normalize token) = some v →
      v.isTarget = false →
      (classifyToken now token seen true).1.classification = Classification.distractor ∧
      (classifyToken now token seen true).1.mappedId = some v.id) ∧
    (∀ (now : Nat) (transcript : String) (already : List String),
      ∀ t ∈ (scoreRecognitionUtterance now transcript already).tokens,
        t.classification = Classification.distractor →
        t ∈ (scoreRecognitionUtterance now transcript already).distractorHits ∧
        t ∉ (scoreRecognitionUtterance now transcript already).intrusions) ∧
    (∀ now : Nat,
      (scoreRecognitionUtterance now ("avião chaleira árvore avião") []).hits
        = ["avião", "árvore"] ∧
      ((scoreRecognitionUtterance now ("avião chaleira árvore avião") []).distractorHits.map
        (fun t => t.normalized)) = ["chaleira"] ∧
      (scoreRecognitionUtterance now ("avião chaleira árvore avião") []).repeats.length = 1) := by
  refine ⟨?_, ?_, ?_⟩
  · intro now token seen v hmiss hv hnt
    rcases classifyToken_vocab_distractor now token seen hmiss hv hnt with ⟨h1, h2, _⟩
    exact ⟨h1, h2⟩
  · intro now transcript already t ht hcls
    have hdh : (scoreRecognitionUtterance now transcript already).distractorHits =
        (scoreRecognitionUtterance now transcript already).tokens.filter
          (fun t => t.classification == Classification.distractor) := rfl
    have hin : (scoreRecognitionUtterance now transcript already).intrusions =
        (scoreRecognitionUtterance now transcript already).tokens.filter
          (fun t => t.classification == Classification.intrusion) := rfl
    constructor
    · rw [hdh]
      exact List.mem_filter.mpr ⟨ht, by simp [hcls]⟩
    · rw [hin]
      intro hmem
      have := (List.mem_filter.mp hmem).2
      rw [hcls] at this
      cases this
  · intro now
    exact ⟨rfl, rfl, rfl⟩

/-- Witness for C4 at the token "chaleira" (a shown distractor). -/
theorem C4_recognition_distractor_witness :
    (allTargetForms (normalize ("chaleira")) = none ∧
     recognitionVocabulary (normalize ("chaleira")) = some ⟨"chaleira", false⟩) ∧
    (classifyToken 7 ("chaleira") [] true).1.classification = Classification.distractor := by
  have h1 : allTargetForms (normalize ("chaleira")) = none := by rfl
  have h2 : recognitionVocabulary (normalize ("chaleira")) = some ⟨"chaleira", false⟩ := by rfl
  exact ⟨⟨h1, h2⟩,
    (C4_recognition_distractor.1 7 ("chaleira") [] ⟨"chaleira", false⟩ h1 h2 rfl).1⟩

/-- C7: in recall scoring, a token whose canonical form is a distractor form
(and not a target form) classifies as `intrusion`, never as `distractor`;
and the recall scenario `scoreRecall("sapato casa casa caminhão", [])`
yields hits `["sapato","casa"]`, exactly one repeat, and an intrusion with
canonical text "caminhao". -/
theorem C7_recall_distractor_is_intrusion :
    (∀ (now : Nat) (token : String) (seen : List String),
      allTargetForms (normalize token) = none →
      distractorForms.contains (normalize token) = true →
      (classifyToken now token seen false).1.classification = Classification.intrusion ∧
      (classifyToken now token seen false).1.mappedId = some (normalize token) ∧
      (classifyToken now token seen false).1.classification ≠ Classification.distractor) ∧
    (∀ now : Nat,
      (scoreRecallUtterance now ("sapato casa casa caminhão") []).hits = ["sapato", "casa"] ∧
      (scoreRecallUtterance now ("sapato casa casa caminhão") []).repeats.length = 1 ∧
      ((scoreRecallUtterance now ("sapato casa casa caminhão") []).intrusions.map
        (fun t => t.normalized)) = ["caminhao"]) := by
  constructor
  · intro now token seen hmiss hd
    rcases classifyToken_recall_distractor now token seen hmiss hd with ⟨h1, h2, _⟩
    refine ⟨h1, h2, ?_⟩
    rw [h1]
    simp
  · intro now
    exact ⟨rfl, rfl, rfl⟩

/-- Witness for C7 at the token "caminhão" (a distractor word). -/
theorem C7_recall_distractor_is_intrusion_witness :
    (allTargetForms (normalize ("caminhão")) = none ∧
     distractorForms.contains (normalize ("caminhão")) = true) ∧
    (classifyToken 3 ("caminhão") [] false).1.classification = Classification.intrusion := by
  have h1 : allTargetForms (normalize ("caminhão")) = none := by rfl
  have h2 : distractorForms.contains (normalize ("caminhão")) = true := by rfl
  exact ⟨⟨h1, h2⟩, (C7_recall_distractor_is_intrusion.1 3 ("caminhão") [] h1 h2).1⟩

/-- C5: for both the recall and the recognition scorer, `hits` is exactly
the deduplicated list of newly credited target identities in
first-occurrence order of the token stream: membership in `hits` coincides
with membership in the stream of target-classified identities, `hits` is
duplicate-free, and distinct hits are ordered by the position of their first
target-classified token. -/
theorem C5_hits_first_occurrence_order :
    ∀ (now : Nat) (transcript : String) (alreadyHit : List String),
      ((∀ a, a ∈ (scoreRecallUtterance now transcript alreadyHit).hits ↔
          a ∈ targetIds (scoreRecallUtterance now transcript alreadyHit).tokens) ∧
        (scoreRecallUtterance now transcript alreadyHit).hits.Nodup ∧
        (scoreRecallUtterance now transcript alreadyHit).hits.Pairwise (fun a b =>
          (targetIds (scoreRecallUtterance now transcript alreadyHit).tokens).indexOf a <
          (targetIds (scoreRecallUtterance now transcript alreadyHit).tokens).indexOf b)) ∧
      ((∀ a, a ∈ (scoreRecognitionUtterance now transcript alreadyHit).hits ↔
          a ∈ targetIds (scoreRecognitionUtterance now transcript alreadyHit).tokens) ∧
        (scoreRecognitionUtterance now transcript alreadyHit).hits.Nodup ∧
        (scoreRecognitionUtterance now transcript alreadyHit).hits.Pairwise (fun a b =>
          (targetIds (scoreRecognitionUtterance now transcript alreadyHit).tokens).indexOf a <
          (targetIds (scoreRecognitionUtterance now transcript alreadyHit).tokens).indexOf b)) := by
  intro now transcript alreadyHit
  have hr : (scoreRecallUtterance now transcript alreadyHit).hits =
      keepFirst (targetIds (scoreRecallUtterance now transcript alreadyHit).tokens) := rfl
  have hg : (scoreRecognitionUtterance now transcript alreadyHit).hits =
      keepFirst (targetIds (scoreRecognitionUtterance now transcript alreadyHit).tokens) := rfl
  constructor
  · refine ⟨?_, ?_, ?_⟩
    · intro a; rw [hr]; exact mem_keepFirst
    · rw [hr]; exact keepFirst_nodup _
    · rw [hr]; exact keepFirst_pairwise _
  · refine ⟨?_, ?_, ?_⟩
    · intro a; rw [hg]; exact mem_keepFirst
    · rw [hg]; exact keepFirst_nodup _
    · rw [hg]; exact keepFirst_pairwise _

/-- C8 counterexample: the scorers are not literally deterministic — the
returned tokens embed the `Date.now()` timestamp of the call, so two
invocations of `scoreRecall` with identical transcript and already-hit list
made at different instants return different values. -/
theorem C8_determinism_counterexample :
    scoreRecallUtterance 0 ("sapato") [] ≠ scoreRecallUtterance 1 ("sapato") [] := by
  decide

/-- C8 (amended): the three scorers are deterministic up to the `Date.now()`
timestamps embedded in the returned tokens: erasing timestamps, two
invocations with identical transcript, already-seen list and (for fluency)
dictionary give identical results — in particular `hits` / `animals` and all
classifications never depend on the clock. -/
theorem C8_deterministic_up_to_timestamps :
    (∀ (n m : Nat) (t : String) (a : List String),
      stripRecall (scoreRecallUtterance n t a) = stripRecall (scoreRecallUtterance m t a)) ∧
    (∀ (n m : Nat) (t : String) (a : List String),
      stripRecognition (scoreRecognitionUtterance n t a) =
        stripRecognition (scoreRecognitionUtterance m t a)) ∧
    (∀ (n m : Nat) (t : String) (dict a : List String),
      stripFluency (scoreFluencyUtterance n t dict a) =
        stripFluency (scoreFluencyUtterance m t dict a)) := by
  have hmap : ∀ (k : Nat) (l : List SpokenToken),
      (l.map (withTime k)).map (withTime 0) = l.map (withTime 0) := by
    intro k l
    rw [List.map_map]
    rfl
  refine ⟨?_, ?_, ?_⟩
  · intro n m t a
    rw [scoreRecall_time n t a, scoreRecall_time m t a]
    unfold stripRecall
    dsimp only
    rw [hmap, hmap, hmap, hmap, hmap, hmap]
  · intro n m t a
    rw [scoreRecognition_time n t a, scoreRecognition_time m t a]
    unfold stripRecognition
    dsimp only
    rw [hmap, hmap, hmap, hmap, hmap, hmap, hmap, hmap]
  · intro n m t dict a
    rw [scoreFluency_time n t dict a, scoreFluency_time m t dict a]
    unfold stripFluency
    dsimp only
    rw [hmap, hmap, hmap, hmap, hmap, hmap]

/-- C2 (amended): fluency n-gram matching is greedy longest-first — 3-word
windows first, then 2-word windows over unconsumed positions, then single
words — and a successful match consumes its positions.  Consequently a
3-word dictionary phrase occurring at window `i` is credited as one trigram
and never split, PROVIDED no overlapping earlier 3-word window is also in
the dictionary (the counterexample shows the unamended claim fails without
this proviso). -/
theorem C2_greedy_trigram (now : Nat) (transcript : String) (dict already : List String)
    (i : Nat)
    (h1 : i + 3 ≤ (tokenize transcript).length)
    (h2 : (getNormalizedAnimals dict).contains
      (normalize (triRaw (tokenize transcript) i)) = true)
    (h3 : ∀ j, j < i → i < j + 3 →
      (getNormalizedAnimals dict).contains
        (normalize (triRaw (tokenize transcript) j)) = false) :
    fluGreedySpec now transcript dict already i := by
  obtain ⟨hc1, hc2, hc3, hcg⟩ :=
    triLoop_credits now (tokenize transcript) (getNormalizedAnimals dict) i h2 h3
      ((tokenize transcript).length - 2) 0 (fluInit already) (Nat.zero_le i) (by omega)
      (List.not_mem_nil i) (List.not_mem_nil (i+1)) (List.not_mem_nil (i+2))
  have hnotin : ∀ k : Nat,
      k ∉ (triPass now (tokenize transcript) (getNormalizedAnimals dict)
        (fluInit already)).consumed → k ∉ [i, i+1, i+2] := by
    intro k hk hmem
    have hk' : k = i ∨ k = i + 1 ∨ k = i + 2 := by simpa using hmem
    rcases hk' with rfl | rfl | rfl
    · exact hk hc1
    · exact hk hc2
    · exact hk hc3
  refine ⟨⟨hc1, hc2, hc3⟩, ?_, ?_, ?_⟩
  · exact uniPass_credit_mono now (tokenize transcript) (getNormalizedAnimals dict) _
      (biPass_credit_mono now (tokenize transcript) (getNormalizedAnimals dict) _ hcg)
  · intro t ht
    rcases uniLoop_tokens_src now (tokenize transcript) (getNormalizedAnimals dict)
        (tokenize transcript).length 0
        (biPass now (tokenize transcript) (getNormalizedAnimals dict)
          (triPass now (tokenize transcript) (getNormalizedAnimals dict) (fluInit already)))
        t ht with ht2 | ⟨k, hk, hraw⟩
    · rcases biLoop_tokens_src now (tokenize transcript) (getNormalizedAnimals dict)
          ((tokenize transcript).length - 1) 0
          (triPass now (tokenize transcript) (getNormalizedAnimals dict) (fluInit already))
          t ht2 with ht1 | ⟨k, hk, hk1, hraw⟩
      · exact Or.inl ht1
      · exact Or.inr (Or.inl ⟨k, hk, hk1, hnotin k hk, hnotin (k+1) hk1, hraw⟩)
    · have hk1 : k ∉ (triPass now (tokenize transcript) (getNormalizedAnimals dict)
          (fluInit already)).consumed := fun hm =>
        hk (biPass_consumed_mono now (tokenize transcript) (getNormalizedAnimals dict) _ hm)
      exact Or.inr (Or.inr ⟨k, hk1, hnotin k hk1, hraw⟩)
  · intro t ht
    rcases uniLoop_repeats_src now (tokenize transcript) (getNormalizedAnimals dict)
        (tokenize transcript).length 0
        (biPass now (tokenize transcript) (getNormalizedAnimals dict)
          (triPass now (tokenize transcript) (getNormalizedAnimals dict) (fluInit already)))
        t ht with ht2 | ⟨k, hk, hraw⟩
    · rcases biLoop_repeats_src now (tokenize transcript) (getNormalizedAnimals dict)
          ((tokenize transcript).length - 1) 0
          (triPass now (tokenize transcript) (getNormalizedAnimals dict) (fluInit already))
          t ht2 with ht1 | ⟨k, hk, hk1, hraw⟩
      · exact Or.inl ht1
      · exact Or.inr (Or.inl ⟨k, hk, hk1, hnotin k hk, hnotin (k+1) hk1, hraw⟩)
    · have hk1 : k ∉ (triPass now (tokenize transcript) (getNormalizedAnimals dict)
          (fluInit already)).consumed := fun hm =>
        hk (biPass_consumed_mono now (tokenize transcript) (getNormalizedAnimals dict) _ hm)
      exact Or.inr (Or.inr ⟨k, hk1, hnotin k hk1, hraw⟩)

/-- C2 counterexample to the unamended claim: with dictionary
`{"a b c", "b c d"}` and transcript "a b c d", the 3-word dictionary phrase
at window 1 ("b c d") occurs in the transcript but is not credited as a
trigram at all — the overlapping earlier window "a b c" consumed positions
1 and 2 first. -/
theorem C2_greedy_trigram_counterexample :
    (1 + 3 ≤ (tokenize ("a b c d")).length) ∧
    ((getNormalizedAnimals ["a b c", "b c d"]).contains
      (normalize (triRaw (tokenize ("a b c d")) 1)) = true) ∧
    (normalize (triRaw (tokenize ("a b c d")) 1)
      ∉ (scoreFluencyUtterance 0 ("a b c d") ["a b c", "b c d"] []).animals) ∧
    ((scoreFluencyUtterance 0 ("a b c d") ["a b c", "b c d"] []).repeats = []) ∧
    ((scoreFluencyUtterance 0 ("a b c d") ["a b c", "b c d"] []).animals
      = ["a b c"]) := by
  decide

/-- Witness for C2 (amended) at transcript "mico leao dourado cachorro". -/
theorem C2_greedy_trigram_witness :
    ((0 + 3 ≤ (tokenize ("mico leao dourado cachorro")).length) ∧
     ((getNormalizedAnimals ["mico leao dourado", "cachorro"]).contains
       (normalize (triRaw (tokenize ("mico leao dourado cachorro")) 0)) = true) ∧
     (∀ j, j < 0 → 0 < j + 3 →
       (getNormalizedAnimals ["mico leao dourado", "cachorro"]).contains
         (normalize (triRaw (tokenize ("mico leao dourado cachorro")) j)) = false)) ∧
    fluGreedySpec 5 ("mico leao dourado cachorro") ["mico leao dourado", "cachorro"] [] 0 := by
  refine ⟨⟨by decide, by decide, by decide⟩, ?_⟩
  exact C2_greedy_trigram 5 ("mico leao dourado cachorro") ["mico leao dourado", "cachorro"]
    [] 0 (by decide) (by decide) (by decide)

/-- C10: in the n-gram fluency scorer, repeats are reported only via
`repeats` and never enter `tokens`: `tokens` consists exactly of the newly
credited animal matches (whose normalized forms are `animals`, in order)
plus the invalid words, so
`tokens.length = animals.length + invalid.length`. -/
theorem C10_fluency_tokens_partition :
    ∀ (now : Nat) (transcript : String) (dict acc : List String),
      (((scoreFluencyUtterance now transcript dict acc).tokens.filter
          (fun t => t.classification == Classification.target)).map (fun t => t.normalized)
        = (scoreFluencyUtterance now transcript dict acc).animals) ∧
      ((scoreFluencyUtterance now transcript dict acc).tokens.filter
          (fun t => t.classification == Classification.intrusion)
        = (scoreFluencyUtterance now transcript dict acc).invalid) ∧
      (∀ t ∈ (scoreFluencyUtterance now transcript dict acc).tokens,
        t.classification ≠ Classification.repeat) ∧
      (∀ t ∈ (scoreFluencyUtterance now transcript dict acc).repeats,
        t.classification = Classification.repeat) ∧
      ((scoreFluencyUtterance now transcript dict acc).tokens.length
        = (scoreFluencyUtterance now transcript dict acc).animals.length +
          (scoreFluencyUtterance now transcript dict acc).invalid.length) := by
  intro now transcript dict acc
  have hs := scoreFluency_shape now transcript dict acc
  refine ⟨hs.1, hs.2.1, ?_, hs.2.2.2, ?_⟩
  · intro t ht
    rcases hs.2.2.1 t ht with h | h <;> rw [h] <;> simp
  · have hanim : (scoreFluencyUtterance now transcript dict acc).animals =
        (uniPass now (tokenize transcript) (getNormalizedAnimals dict)
          (biPass now (tokenize transcript) (getNormalizedAnimals dict)
            (triPass now (tokenize transcript) (getNormalizedAnimals dict)
              (fluInit acc)))).animals := rfl
    have hinv : (scoreFluencyUtterance now transcript dict acc).invalid =
        (uniPass now (tokenize transcript) (getNormalizedAnimals dict)
          (biPass now (tokenize transcript) (getNormalizedAnimals dict)
            (triPass now (tokenize transcript) (getNormalizedAnimals dict)
              (fluInit acc)))).invalid := rfl
    have htok : (scoreFluencyUtterance now transcript dict acc).tokens =
        (uniPass now (tokenize transcript) (getNormalizedAnimals dict)
          (biPass now (tokenize transcript) (getNormalizedAnimals dict)
            (triPass now (tokenize transcript) (getNormalizedAnimals dict)
              (fluInit acc)))).tokens := rfl
    rw [htok, hanim, hinv, ← hs.1, ← hs.2.1, List.length_map]
    exact length_filter_partition hs.2.2.1

end BBRC

